import Mathlib

/- Shallow embedding of the octopus CI/CD test-orchestration core
   (the octopus/dsl and octopus/orchestration packages): variables and the
   variable evaluator, runner command rendering, service and test specs,
   configuration construction with its syntax/semantic checks, the
   dependency-graph manager with its Kahn/generations topological sort as
   implemented by the graph library the code calls, execution planning,
   and the test manager's execute loop.  Theorems about the embedded
   definitions follow the definitions. -/

set_option maxRecDepth 10000

-- ## Python-style string helpers

/-- Python str.join: pieces joined with the separator between them. -/
def pyJoin (sep : String) : List String → String
  | [] => ""
  | [x] => x
  | x :: xs => x ++ sep ++ pyJoin sep xs

/-- Python str.replace on character lists: every non-overlapping occurrence of
pat, scanned left to right, is replaced by rep; replacement text is not
rescanned at the position it was inserted (Python semantics).  The empty
pattern is never used by the callers and is treated as a no-op. -/
def replaceChars (pat rep : List Char) : Nat → List Char → List Char
  | _, [] => []
  | 0, s => s
  | fuel + 1, c :: rest =>
    if pat ≠ [] ∧ pat.isPrefixOf (c :: rest) then
      rep ++ replaceChars pat rep fuel ((c :: rest).drop pat.length)
    else
      c :: replaceChars pat rep fuel rest

/-- Python str.replace lifted to strings.  The fuel argument of the scanner
is at least the input length at every recursive call (each step strictly
shortens the input), so the fuel-exhaustion branch is never taken. -/
def pyReplace (s pat rep : String) : String :=
  ⟨replaceChars pat.data rep.data s.data.length s.data⟩

/-- Python substring membership (needle in haystack) on character lists. -/
def listContainsSub (needle : List Char) : List Char → Bool
  | [] => needle.isEmpty
  | c :: rest => needle.isPrefixOf (c :: rest) || listContainsSub needle rest

/-- Python substring membership on strings. -/
def strContains (hay needle : String) : Bool :=
  listContainsSub needle.data hay.data

/-- Association-list lookup (first entry wins), used to model Python dicts
keyed by strings. -/
def alookup {α : Type} : List (String × α) → String → Option α
  | [], _ => none
  | (k, v) :: rest, key => if k = key then some v else alookup rest key

/-- Python truthiness of an optional string (None and the empty string are
falsy). -/
def truthyOpt : Option String → Bool
  | some s => s ≠ ""
  | none => false

-- ## Error taxonomy
-- In the source every raise site uses ValueError (or a graph-library error)
-- with a message; the constructors below name the raise sites, following the
-- specification's error taxonomy (section 7).

/-- Errors of the embedded pipeline, one constructor per raise site:
unsupportedVersion is the version validator; duplicateServiceName and
duplicateTestName are the name-index construction of the Config;
semanticCheckFailed is Config.verify ("semantic check failed" with the
per-category findings); unknownTriggerReference ("Service ... triggers
non-existent Test ...") and unknownNeedsReference ("Test ... needs
non-existent service ...") are graph build; cyclicGraph is
get_topological_order ("Cannot perform topological sort on a graph with
cycles."); missingDependencies is generate_execution_plan ("Test ... cannot
run because dependencies ... are missing."); nodeNotInGraph is the graph
library's error when predecessors is asked about an absent node;
invalidMutation is the Variable value setter; stopIteration models Python's
next() on an exhausted generator; keyError models a Python dict lookup of a
missing key. -/
inductive DslError where
  | unsupportedVersion (v : String)
  | duplicateServiceName (name : String)
  | duplicateTestName (name : String)
  | semanticCheckFailed (nextErrs dependsErrs triggerErrs needsErrs : List (String × String))
  | unknownTriggerReference (svc test : String)
  | unknownNeedsReference (test svc : String)
  | cyclicGraph
  | missingDependencies (test : String) (missing : List String)
  | nodeNotInGraph (node : String)
  | invalidMutation (key : String)
  | stopIteration
  | keyError (k : String)
deriving Repr, DecidableEq, Inhabited

/-- Whether an Except value is a success. -/
def exceptIsOk {ε α : Type} : Except ε α → Bool
  | .ok _ => true
  | .error _ => false

/-- Whether the result failed with one of the two graph-build reference
errors (the specification's UnknownReference). -/
def isUnknownReferenceError {α : Type} : Except DslError α → Bool
  | .error (.unknownTriggerReference _ _) => true
  | .error (.unknownNeedsReference _ _) => true
  | _ => false

-- ## Variable (octopus/dsl/variable.py)

/-- Python str.startswith on strings, decided on the character lists. -/
def strStartsWith (s pre : String) : Bool :=
  pre.data.isPrefixOf s.data

/-- Input variable: frozen key, privately stored value (possibly absent). -/
structure Variable where
  key : String
  value : Option String := none
deriving Repr, DecidableEq, Inhabited

/-- Variable.is_lazy: the key starts with the dollar sigil. -/
def Variable.isLazy (v : Variable) : Bool :=
  strStartsWith v.key "$"

/-- The Variable.value setter: reassigning a variable whose key does not
start with the sigil raises ("Cannot reassign value to non-lazy variable"). -/
def Variable.setValue (v : Variable) (nv : String) : Except DslError Variable :=
  if ¬ strStartsWith v.key "$" then .error (.invalidMutation v.key)
  else .ok { v with value := some nv }

/-- Attempted assignment as observed on the Python object: when the setter
raises, the exception propagates and the object is left unchanged. -/
def Variable.setValueOrKeep (v : Variable) (nv : String) : Variable :=
  match v.setValue nv with
  | .ok v' => v'
  | .error _ => v

-- ## Variable evaluator (octopus/dsl/variable.py, VariableEvaluator)

/-- The matches of re.finditer over the value for the evaluator's pattern: a
dollar, an opening brace, one or more non-brace characters, a closing brace.
Matches are found in the original string, left to right, non-overlapping; on
a failed match the scan advances by one character.  Returns the full matched
texts in order. -/
def scanVarRefsFuel : Nat → List Char → List String
  | 0, _ => []
  | _ + 1, [] => []
  | fuel + 1, '$' :: '{' :: rest =>
    let body := rest.takeWhile (fun c => c ≠ '}')
    if body.isEmpty then scanVarRefsFuel fuel ('{' :: rest)
    else if rest.drop body.length ≠ [] then
      String.mk ('$' :: '{' :: (body ++ ['}'])) :: scanVarRefsFuel fuel (rest.drop (body.length + 1))
    else scanVarRefsFuel fuel ('{' :: rest)
  | fuel + 1, _ :: rest => scanVarRefsFuel fuel rest

/-- The scanner with its fuel fixed to the input length; every recursive call
strictly shortens the input, so the fuel never runs out. -/
def scanVarRefs (l : List Char) : List String :=
  scanVarRefsFuel l.length l

/-- VariableEvaluator.evaluate_value: the matches are computed from the
original string; then, for each match whose key is bound, every occurrence of
the matched text in the current value is replaced by the binding. -/
def evaluateValue (binds : List (String × String)) (value : String) : String :=
  (scanVarRefs value.data).foldl
    (fun v m =>
      let key := String.mk ((m.data.drop 2).dropLast)
      match alookup binds key with
      | some x => pyReplace v m x
      | none => v)
    value

-- ## Runners (octopus/dsl/runner.py)

/-- HTTP methods (constants.HttpMethod). -/
inductive HttpMethod where
  | GET | POST | PUT | DELETE | PATCH
deriving Repr, DecidableEq, Inhabited

/-- The string value of an HTTP method, as joined into the command. -/
def HttpMethod.value : HttpMethod → String
  | .GET => "GET"
  | .POST => "POST"
  | .PUT => "PUT"
  | .DELETE => "DELETE"
  | .PATCH => "PATCH"

/-- ShellRunner: argv tokens. -/
structure ShellRunner where
  cmd : List String
deriving Repr, DecidableEq, Inhabited

/-- ShellRunner.get_command: tokens joined with spaces. -/
def ShellRunner.getCommand (r : ShellRunner) : String :=
  pyJoin " " r.cmd

/-- HttpRunner fields: header required, method defaults to GET, payload
optional, endpoint required. -/
structure HttpRunner where
  header : String
  method : HttpMethod := .GET
  payload : Option String := none
  endpoint : String
deriving Repr, DecidableEq, Inhabited

/-- HttpRunner.get_command.  The required-fields check always passes because
every declared field is present in the model dump.  Then: curl; the header
wrapped in single quotes when truthy; -X with the method; -d with the quoted
payload when the payload is truthy and the method is neither GET nor DELETE;
the quoted endpoint; all joined with spaces. -/
def HttpRunner.getCommand (r : HttpRunner) : String :=
  let cmd := ["curl"]
  let cmd := if r.header ≠ "" then cmd ++ ["-H", "\x27" ++ r.header ++ "\x27"] else cmd
  let cmd := cmd ++ ["-X", r.method.value]
  let cmd :=
    if truthyOpt r.payload ∧ r.method ∉ [HttpMethod.GET, HttpMethod.DELETE] then
      cmd ++ ["-d", "\x27" ++ r.payload.getD "" ++ "\x27"]
    else cmd
  let cmd := cmd ++ ["\x27" ++ r.endpoint ++ "\x27"]
  pyJoin " " cmd

/-- GrpcRunner fields. -/
structure GrpcRunner where
  proto : Option String := none
  function : String
  endpoint : String
  payload : String
deriving Repr, DecidableEq, Inhabited

/-- GrpcRunner.get_command. -/
def GrpcRunner.getCommand (r : GrpcRunner) : String :=
  let cmd := ["grpcurl"]
  let cmd := if truthyOpt r.proto then cmd ++ ["-proto", r.proto.getD ""] else cmd
  let cmd := cmd ++ ["-d", "\x27" ++ r.payload ++ "\x27"]
  let cmd := cmd ++ ["-plaintext", r.endpoint]
  let cmd := cmd ++ [r.function]
  pyJoin " " cmd

/-- PytestRunner fields. -/
structure PytestRunner where
  root_dir : Option String := none
  test_args : List String
deriving Repr, DecidableEq, Inhabited

/-- PytestRunner.get_command. -/
def PytestRunner.getCommand (r : PytestRunner) : String :=
  let cmd := ["pytest"]
  let cmd := if truthyOpt r.root_dir then cmd ++ ["--rootdir", r.root_dir.getD ""] else cmd
  let cmd := if ¬ r.test_args.isEmpty then cmd ++ r.test_args else cmd
  pyJoin " " cmd

/-- DockerRunner fields. -/
structure DockerRunner where
  cntr_name : String
  cmd : List String
deriving Repr, DecidableEq, Inhabited

/-- DockerRunner.get_command: the literal docker exec prefix, the container
name, a space, and the argv tokens joined with spaces. -/
def DockerRunner.getCommand (r : DockerRunner) : String :=
  "docker exec " ++ r.cntr_name ++ " " ++ pyJoin " " r.cmd

/-- The tagged union of the five runner variants. -/
inductive Runner where
  | shell (r : ShellRunner)
  | http (r : HttpRunner)
  | grpc (r : GrpcRunner)
  | pytest (r : PytestRunner)
  | docker (r : DockerRunner)
deriving Repr, DecidableEq, Inhabited

/-- Runner dispatch of get_command. -/
def Runner.getCommand : Runner → String
  | .shell r => r.getCommand
  | .http r => r.getCommand
  | .grpc r => r.getCommand
  | .pytest r => r.getCommand
  | .docker r => r.getCommand

-- ## Expectations and tests (octopus/dsl/checker.py, dsl_test.py)

/-- Test modes (constants.TestMode); NONE is the unset default. -/
inductive TestMode where
  | SHELL | HTTP | GRPC | PYTEST | DOCKER | NONE
deriving Repr, DecidableEq, Inhabited

/-- A Python value that may be an int or a str (the pydantic field type
int-or-str used by Expect.exit_code and Expect.status_code). -/
inductive PyVal where
  | int (n : Int)
  | str (s : String)
deriving Repr, DecidableEq, Inhabited

/-- Expect: mode-tagged expectation record; absent fields are None. -/
structure Expect where
  mode : TestMode := .NONE
  exit_code : Option PyVal := none
  stdout : Option String := none
  stderr : Option String := none
  status_code : Option PyVal := none
  response : Option String := none
deriving Repr, DecidableEq, Inhabited

/-- Python equality of an int against an int-or-str-or-None value: true only
when the value is an int with the same numeric value (int == str and
int == None are False in Python). -/
def pyEqIntOpt (rc : Int) : Option PyVal → Bool
  | some (.int n) => rc == n
  | _ => false

/-- Rendering of an optional int-or-str for error messages. -/
def pyValRepr : Option PyVal → String
  | none => "None"
  | some (.int n) => toString n
  | some (.str s) => s

/-- DslTest: name, description, mode, needed services, runner, expectation. -/
structure DslTest where
  name : String
  desc : String := ""
  mode : TestMode
  needs : List String := []
  runner : Runner
  expect : Expect
deriving Repr, DecidableEq, Inhabited

-- ## Service spec (octopus/dsl/dsl_service.py)

/-- DslService model fields.  Optional list fields default to the empty
list, so the constructor-data snapshot is represented with its defaults
applied (fields absent from the constructor data hold these defaults and are
never modified afterwards, which is observationally the same). -/
structure DslService where
  name : String
  desc : String
  image : String
  args : List String := []
  envs : List String := []
  ports : List String := []
  vols : List String := []
  next : List String := []
  depends_on : List String := []
  trigger : List String := []
deriving Repr, DecidableEq, Inhabited

/-- VariableEvaluator.evaluate_dict over a service's field map: string leaves
go through evaluate_value, list fields are evaluated element-wise. -/
def evalServiceData (vars : List (String × String)) (d : DslService) : DslService :=
  { name := evaluateValue vars d.name
    desc := evaluateValue vars d.desc
    image := evaluateValue vars d.image
    args := d.args.map (evaluateValue vars)
    envs := d.envs.map (evaluateValue vars)
    ports := d.ports.map (evaluateValue vars)
    vols := d.vols.map (evaluateValue vars)
    next := d.next.map (evaluateValue vars)
    depends_on := d.depends_on.map (evaluateValue vars)
    trigger := d.trigger.map (evaluateValue vars) }

/-- The runtime state of a DslService object: the live model fields plus the
private origin-data snapshot taken by the constructor. -/
structure DslServiceObj where
  fields : DslService
  originData : DslService
deriving Repr, DecidableEq, Inhabited

/-- DslService construction from data: live fields and snapshot coincide. -/
def DslServiceObj.init (d : DslService) : DslServiceObj :=
  ⟨d, d⟩

/-- DslService.evaluate: restore a deep copy of the origin data, substitute
the bindings in it, and assign the evaluated values back to the live
fields.  The snapshot itself is never modified. -/
def DslServiceObj.evaluate (s : DslServiceObj) (vars : List (String × String)) :
    DslServiceObj :=
  ⟨evalServiceData vars s.originData, s.originData⟩

-- a few evaluation sanity checks of the evaluator embedding

example : evaluateValue [("svc_name", "w")] "${svc_name}" = "w" := by rfl

example : evaluateValue [("p", "8080")] "${p}:80" = "8080:80" := by rfl

example : evaluateValue [("a", "x")] "${b}:80" = "${b}:80" := by rfl

example :
    ((DslServiceObj.init
        { name := "${svc_name}", desc := "d", image := "i",
          ports := ["${p}:80"] }).evaluate
      [("svc_name", "w"), ("p", "9090")]).fields.ports = ["9090:80"] := by rfl

-- ## Config (octopus/dsl/dsl_config.py)

/-- The supported DSL versions (constants.SUPPORTED_VERSION). -/
def SUPPORTED_VERSION : List String := ["0.1.0"]

/-- The raw field data of a DslConfig. -/
structure ConfigData where
  version : String
  name : String
  desc : String
  inputs : List Variable := []
  services : List DslService := []
  tests : List DslTest := []
deriving Repr, DecidableEq, Inhabited

/-- Python dict insertion d at k becomes v: an existing key keeps its
position and gets the new value; a new key is appended. -/
def dictInsert {α : Type} (d : List (String × α)) (k : String) (v : α) :
    List (String × α) :=
  if k ∈ d.map Prod.fst then
    d.map (fun p => if p.1 = k then (k, v) else p)
  else d ++ [(k, v)]

/-- The inputs loop of DslConfig.__init__: duplicate keys only log a
warning; each variable is stored under its key (so the last occurrence
wins), and lazy variables are additionally indexed in the lazy map. -/
def buildInputDicts (inputs : List Variable) :
    List (String × Variable) × List (String × Variable) :=
  inputs.foldl
    (fun (p : List (String × Variable) × List (String × Variable)) v =>
      (dictInsert p.1 v.key v,
       if v.isLazy then dictInsert p.2 v.key v else p.2))
    ([], [])

/-- The first name already seen when scanning left to right (the name at
which the duplicate-check loop of DslConfig.__init__ raises), if any. -/
def firstDupAux (seen : List String) : List String → Option String
  | [] => none
  | x :: xs => if x ∈ seen then some x else firstDupAux (seen ++ [x]) xs

/-- First duplicated element of a list, none when all distinct. -/
def firstDup (l : List String) : Option String := firstDupAux [] l

/-- The service names of a configuration (the keys of _services_dict). -/
def serviceNames (cfg : ConfigData) : List String := cfg.services.map (·.name)

/-- The test names of a configuration (the keys of _tests_dict). -/
def testNames (cfg : ConfigData) : List String := cfg.tests.map (·.name)

/-- Config._verify_nexts: pairs (service, next) whose target names no
existing service. -/
def missingNextFindings (cfg : ConfigData) : List (String × String) :=
  cfg.services.flatMap (fun s =>
    (s.next.filter (fun n => ¬ n ∈ serviceNames cfg)).map (fun n => (s.name, n)))

/-- Config._verify_dependencies: pairs (service, dependency) whose target
names no existing service. -/
def missingDependsFindings (cfg : ConfigData) : List (String × String) :=
  cfg.services.flatMap (fun s =>
    (s.depends_on.filter (fun n => ¬ n ∈ serviceNames cfg)).map (fun n => (s.name, n)))

/-- Config._verify_triggers: pairs (service, trigger) whose target names no
existing test. -/
def missingTriggerFindings (cfg : ConfigData) : List (String × String) :=
  cfg.services.flatMap (fun s =>
    (s.trigger.filter (fun n => ¬ n ∈ testNames cfg)).map (fun n => (s.name, n)))

/-- Config._verify_needs: pairs (test, needs) whose target names no existing
service. -/
def missingNeedsFindings (cfg : ConfigData) : List (String × String) :=
  cfg.tests.flatMap (fun t =>
    (t.needs.filter (fun n => ¬ n ∈ serviceNames cfg)).map (fun n => (t.name, n)))

/-- Config.verify: collect the findings of the four reference sub-checks
(the inputs sub-check always passes) and raise the aggregated semantic-check
error when any category is nonempty. -/
def verifyE (cfg : ConfigData) : Except DslError Unit :=
  let e1 := missingNextFindings cfg
  let e2 := missingDependsFindings cfg
  let e3 := missingTriggerFindings cfg
  let e4 := missingNeedsFindings cfg
  if e1 = [] ∧ e2 = [] ∧ e3 = [] ∧ e4 = [] then .ok ()
  else .error (.semanticCheckFailed e1 e2 e3 e4)

/-- Config.is_valid_service: re-runs verify, then checks the name index. -/
def isValidService (cfg : ConfigData) (n : String) : Except DslError Bool := do
  let _ ← verifyE cfg
  pure (n ∈ serviceNames cfg)

/-- Config.is_valid_test: re-runs verify, then checks the name index. -/
def isValidTest (cfg : ConfigData) (n : String) : Except DslError Bool := do
  let _ ← verifyE cfg
  pure (n ∈ testNames cfg)

-- ## The directed graph (networkx DiGraph as used by DAGManager)

/-- One graph node: its name, its node-type attribute (empty when the node
was created without attributes), and its out-adjacency in insertion order,
each edge carrying its type attribute. -/
structure Vert where
  name : String
  ntype : String
  out : List (String × String)
deriving Repr, DecidableEq, Inhabited

/-- A directed graph: the vertices in insertion order. -/
structure DiGraph where
  verts : List Vert
deriving Repr, DecidableEq, Inhabited

/-- Node names in insertion order. -/
def DiGraph.names (g : DiGraph) : List String := g.verts.map (·.name)

/-- DiGraph.add_node with a type attribute: an existing node gets its
attribute updated in place, a new node is appended. -/
def DiGraph.addNodeAttr (g : DiGraph) (n t : String) : DiGraph :=
  if n ∈ g.names then
    ⟨g.verts.map (fun vt => if vt.name = n then { vt with ntype := t } else vt)⟩
  else ⟨g.verts ++ [⟨n, t, []⟩]⟩

/-- Ensure a node exists, creating it without attributes if absent (what
add_edge does to missing endpoints). -/
def DiGraph.addVertPlain (g : DiGraph) (n : String) : DiGraph :=
  if n ∈ g.names then g else ⟨g.verts ++ [⟨n, "", []⟩]⟩

/-- Update an out-adjacency with an edge: an existing target keeps its
position and gets the new type; a new target is appended. -/
def updateOut (out : List (String × String)) (v t : String) : List (String × String) :=
  if v ∈ out.map Prod.fst then out.map (fun p => if p.1 = v then (v, t) else p)
  else out ++ [(v, t)]

/-- DiGraph.add_edge u v with a type attribute. -/
def DiGraph.addEdge (g : DiGraph) (u v t : String) : DiGraph :=
  let g' := (g.addVertPlain u).addVertPlain v
  ⟨g'.verts.map (fun vt => if vt.name = u then { vt with out := updateOut vt.out v t } else vt)⟩

/-- The out-adjacency pairs of a node (empty for an absent node). -/
def DiGraph.succPairs (g : DiGraph) (u : String) : List (String × String) :=
  match g.verts.find? (fun vt => vt.name == u) with
  | some vt => vt.out
  | none => []

/-- The successors of a node in adjacency order (G.neighbors). -/
def DiGraph.succList (g : DiGraph) (u : String) : List String :=
  (g.succPairs u).map Prod.fst

/-- The edge relation of the graph. -/
def EdgeRel (g : DiGraph) (u v : String) : Prop := v ∈ g.succList u

instance (g : DiGraph) (u v : String) : Decidable (EdgeRel g u v) :=
  inferInstanceAs (Decidable (v ∈ g.succList u))

/-- All edges (source, target, type) in iteration order: source nodes in
insertion order, each source's adjacency in insertion order (G.edges). -/
def DiGraph.edgeList (g : DiGraph) : List (String × String × String) :=
  g.verts.flatMap (fun vt => vt.out.map (fun p => (vt.name, p.1, p.2)))

/-- Number of edges (len(G.edges)). -/
def DiGraph.edgeCount (g : DiGraph) : Nat := g.edgeList.length

/-- The predecessors of a node (in vertex-insertion order; only the set is
ever consumed). -/
def DiGraph.predList (g : DiGraph) (v : String) : List String :=
  (g.verts.filter (fun vt => vt.out.any (fun p => p.1 == v))).map (·.name)

/-- The node-type attribute of a node (empty for an absent node). -/
def DiGraph.ntypeOf (g : DiGraph) (n : String) : String :=
  match g.verts.find? (fun vt => vt.name == n) with
  | some vt => vt.ntype
  | none => ""

/-- The indegree of a node: the number of in-edges counted over every
out-adjacency (G.in_degree). -/
def DiGraph.indeg (g : DiGraph) (v : String) : Nat :=
  (g.verts.map (fun vt => vt.out.countP (fun p => p.1 == v))).sum

-- ## Graph construction (DAGManager._build_graph)

/-- Step 1 of _build_graph: all service nodes, then all test nodes. -/
def addConfigNodes (cfg : ConfigData) : DiGraph :=
  let g := cfg.services.foldl (fun g s => g.addNodeAttr s.name "service") ⟨[]⟩
  cfg.tests.foldl (fun g t => g.addNodeAttr t.name "test") g

/-- The next-edge loop of __build_service_edges for one service: an absent
target only logs a warning and is skipped. -/
def addNextEdges (g : DiGraph) (s : DslService) : DiGraph :=
  s.next.foldl (fun g n => if n ∈ g.names then g.addEdge s.name n "next" else g) g

/-- The depends_on loop of __build_service_edges: the edge points from the
prerequisite to the dependent; an absent prerequisite is skipped. -/
def addDependsEdges (g : DiGraph) (s : DslService) : DiGraph :=
  s.depends_on.foldl (fun g d => if d ∈ g.names then g.addEdge d s.name "depends_on" else g) g

/-- The trigger loop of __build_service_edges: an invalid test name raises;
a valid one is ensured as a test node and linked by a trigger edge. -/
def addTriggerEdges (cfg : ConfigData) (s : DslService) :
    DiGraph → List String → Except DslError DiGraph
  | g, [] => .ok g
  | g, t :: ts => do
    let ok ← isValidTest cfg t
    if ¬ ok then .error (.unknownTriggerReference s.name t)
    else
      let g' := if t ∈ g.names then g else g.addNodeAttr t "test"
      addTriggerEdges cfg s (g'.addEdge s.name t "trigger") ts

/-- __build_service_edges over all services. -/
def buildServiceEdges (cfg : ConfigData) :
    DiGraph → List DslService → Except DslError DiGraph
  | g, [] => .ok g
  | g, s :: ss => do
    let g1 := addNextEdges g s
    let g2 := addDependsEdges g1 s
    let g3 ← addTriggerEdges cfg s g2 s.trigger
    buildServiceEdges cfg g3 ss

/-- The needs loop of __build_test_edges for one test: an invalid service
name raises; a valid but absent node would be skipped with a warning. -/
def addNeedsEdges (cfg : ConfigData) (t : DslTest) :
    DiGraph → List String → Except DslError DiGraph
  | g, [] => .ok g
  | g, n :: ns => do
    let ok ← isValidService cfg n
    if ¬ ok then .error (.unknownNeedsReference t.name n)
    else if ¬ n ∈ g.names then addNeedsEdges cfg t g ns
    else addNeedsEdges cfg t (g.addEdge t.name n "needs") ns

/-- __build_test_edges over all tests. -/
def buildTestEdges (cfg : ConfigData) :
    DiGraph → List DslTest → Except DslError DiGraph
  | g, [] => .ok g
  | g, t :: ts => do
    let g1 ← addNeedsEdges cfg t g t.needs
    buildTestEdges cfg g1 ts

/-- DAGManager._build_graph: nodes, then service edges, then test edges. -/
def buildFullGraph (cfg : ConfigData) : Except DslError DiGraph := do
  let g := addConfigNodes cfg
  let g1 ← buildServiceEdges cfg g cfg.services
  buildTestEdges cfg g1 cfg.tests

/-- The default allowed edge types of DAGManager. -/
def defaultAllowedEdgeTypes : List String := ["next", "trigger"]

/-- DAGManager._gen_subgraph: a fresh graph rebuilt from the edges whose
type is allowed; both endpoints get their node attributes copied over. -/
def genSubgraph (g : DiGraph) (allowed : List String) : DiGraph :=
  g.edgeList.foldl
    (fun sg e =>
      if e.2.2 ∈ allowed then
        ((sg.addEdge e.1 e.2.1 e.2.2).addNodeAttr e.1 (g.ntypeOf e.1)).addNodeAttr
          e.2.1 (g.ntypeOf e.2.1)
      else sg)
    ⟨[]⟩

-- ## Topological sort (networkx topological_generations, as consumed by
-- topological_sort and is_directed_acyclic_graph)

/-- Decrement the child's entry in the positive-indegree map: the entry is
decremented in place and deleted when it reaches zero; the flag reports
whether it reached zero.  A missing key is a no-op (the Python code would
raise KeyError there; the invariants proved below show every decremented
child is present). -/
def decChild : List (String × Nat) → String → List (String × Nat) × Bool
  | [], _ => ([], false)
  | (k, n) :: rest, c =>
    if k = c then
      if n ≤ 1 then (rest, true) else ((k, n - 1) :: rest, false)
    else
      let r := decChild rest c
      ((k, n) :: r.1, r.2)

/-- Process the out-neighbors of one generation node in adjacency order,
appending the children whose indegree reached zero to the next generation. -/
def processChildren : List String → List (String × Nat) → List String →
    List (String × Nat) × List String
  | [], m, acc => (m, acc)
  | c :: cs, m, acc =>
    let r := decChild m c
    processChildren cs r.1 (if r.2 then acc ++ [c] else acc)

/-- Process one whole generation in order, accumulating the next one. -/
def processGen (g : DiGraph) : List String → List (String × Nat) → List String →
    List (String × Nat) × List String
  | [], m, acc => (m, acc)
  | n :: ns, m, acc =>
    let r := processChildren (g.succList n) m acc
    processGen g ns r.1 r.2

/-- The generations loop: concatenates the generations in order and returns
the leftover positive-indegree map (nonempty exactly on a cycle; the
generator raises Unfeasible at the end in that case).  The fuel bound is
never reached for the fuel the runner passes. -/
def genLoop (g : DiGraph) : Nat → List (String × Nat) → List String →
    List String × List (String × Nat)
  | _, m, [] => ([], m)
  | 0, m, _ => ([], m)
  | fuel + 1, m, zero =>
    let r := processGen g zero m []
    let r2 := genLoop g fuel r.1 r.2
    (zero ++ r2.1, r2.2)

/-- Run the sort: the initial zero-indegree generation and the positive
indegree map, both in node-insertion order, with fuel one more than the node
count. -/
def kahnRun (g : DiGraph) : List String × List (String × Nat) :=
  let zero := (g.verts.filter (fun vt => g.indeg vt.name == 0)).map (·.name)
  let m := (g.verts.filter (fun vt => ¬ g.indeg vt.name == 0)).map
    (fun vt => (vt.name, g.indeg vt.name))
  genLoop g (g.verts.length + 1) m zero

/-- nx.is_directed_acyclic_graph: the sort consumes every node. -/
def isDirectedAcyclicGraph (g : DiGraph) : Bool :=
  (kahnRun g).2.isEmpty

/-- DAGManager.is_valid_dag: an edgeless subgraph is a DAG; otherwise defer
to the library check on the allowed-type subgraph. -/
def isValidDag (g : DiGraph) (allowed : List String) : Bool :=
  let sg := genSubgraph g allowed
  if sg.edgeCount == 0 then true
  else isDirectedAcyclicGraph sg

/-- DAGManager.get_topological_order: raises when the DAG check fails, else
the order of the sort on the regenerated subgraph. -/
def getTopologicalOrder (g : DiGraph) (allowed : List String) :
    Except DslError (List String) :=
  if ¬ isValidDag g allowed then .error .cyclicGraph
  else .ok (kahnRun (genSubgraph g allowed)).1

-- ## Execution planning (DAGManager.generate_execution_plan)

/-- The deploy/execute dictionary returned by generate_execution_plan. -/
structure Plan where
  deploy : List String
  execute : List String
deriving Repr, DecidableEq, Inhabited

/-- The execute loop of generate_execution_plan: each not-yet-executed test
of the order is looked up (next over the tests generator), its needs are
checked against the deploy list, and it is appended or the whole plan
generation raises. -/
def genExecLoop (tests : List DslTest) (tnames deploy : List String) :
    List String → List String → List String → Except DslError (List String)
  | [], _, acc => .ok acc
  | node :: rest, executed, acc =>
    if node ∈ tnames ∧ ¬ node ∈ executed then
      match tests.find? (fun t => t.name == node) with
      | none => .error .stopIteration
      | some tobj =>
        let missing := tobj.needs.filter (fun x => ¬ x ∈ deploy)
        if missing.isEmpty then
          genExecLoop tests tnames deploy rest (executed ++ [node]) (acc ++ [node])
        else .error (.missingDependencies node missing)
    else genExecLoop tests tnames deploy rest executed acc

/-- DAGManager.generate_execution_plan: the deploy list is the services of
the topological order; the execute list is the tests of the order, each
checked against the deploy list; the result is a dict of the two lists. -/
def generateExecutionPlan (cfg : ConfigData) (g : DiGraph) : Except DslError Plan := do
  let order ← getTopologicalOrder g defaultAllowedEdgeTypes
  let deploy := order.filter (fun node => node ∈ serviceNames cfg)
  let execute ← genExecLoop cfg.tests (testNames cfg) deploy order [] []
  pure ⟨deploy, execute⟩

-- ## Config construction (DslConfig.__init__ and _init_dag)

/-- A successfully constructed DslConfig: the data, the two input indices
and the DAG manager's full graph. -/
structure BuiltConfig where
  data : ConfigData
  inputsDict : List (String × Variable)
  lazyVars : List (String × Variable)
  graph : DiGraph
deriving Repr, DecidableEq, Inhabited

/-- DslConfig construction: version validation (a pydantic field validator,
run before anything else), input indexing (duplicates only warn), the
service and test duplicate-name checks (raising at the first duplicate),
then _init_dag: the semantic check followed by the DAG build. -/
def buildConfig (cfg : ConfigData) : Except DslError BuiltConfig :=
  if ¬ cfg.version ∈ SUPPORTED_VERSION then .error (.unsupportedVersion cfg.version)
  else
    let dicts := buildInputDicts cfg.inputs
    match firstDup (serviceNames cfg) with
    | some n => .error (.duplicateServiceName n)
    | none =>
      match firstDup (testNames cfg) with
      | some n => .error (.duplicateTestName n)
      | none => do
        let _ ← verifyE cfg
        let g ← buildFullGraph cfg
        pure ⟨cfg, dicts.1, dicts.2, g⟩

-- ## TestManager (octopus/orchestration/manager.py)

/-- Execution node statuses. -/
inductive ExecStatus where
  | pending | running | success | failed | skipped
deriving Repr, DecidableEq, Inhabited

/-- A captured subprocess result: exit code, stdout, stderr. -/
structure SubprocResult where
  returncode : Int
  stdout : String
  stderr : String
deriving Repr, DecidableEq, Inhabited

/-- The result check of TestManager._execute_test: only the exit code is
compared against the expectation; the captured stdout and stderr are never
inspected.  Returns the node's terminal status and its error message. -/
def executeTestCheck (t : DslTest) (r : SubprocResult) : ExecStatus × Option String :=
  if pyEqIntOpt r.returncode t.expect.exit_code then (.success, none)
  else
    (.failed,
     some ("Test failed, expected exit code: " ++ pyValRepr t.expect.exit_code
       ++ ", actual: " ++ toString r.returncode))

/-- Modelled from the spec: the shell/docker test-dispatch comparison of
section 4.4, which the source does not implement (_execute_test checks the
exit code only): the exit code must match AND, when expect.stdout is
non-empty, the captured stdout must contain it AND, when expect.stderr is
non-empty, the captured stderr must contain it. -/
def specShellDockerCheck (e : Expect) (r : SubprocResult) : Bool :=
  pyEqIntOpt r.returncode e.exit_code
  && (match e.stdout with
      | some s => s == "" || strContains r.stdout s
      | none => true)
  && (match e.stderr with
      | some s => s == "" || strContains r.stderr s
      | none => true)

/-- networkx DiGraph.predecessors: raises when the node is absent. -/
def predecessorsE (g : DiGraph) (n : String) : Except DslError (List String) :=
  if n ∈ g.names then .ok (g.predList n) else .error (.nodeNotInGraph n)

/-- TestManager._can_execute_node: every predecessor in the subgraph that is
a known execution node must have status success; unknown names only warn. -/
def canExecuteNode (sg : DiGraph) (statuses : List (String × ExecStatus)) (n : String) :
    Except DslError Bool := do
  let deps ← predecessorsE sg n
  pure (deps.all (fun d =>
    match alookup statuses d with
    | none => true
    | some st => st == .success))

/-- Assignment to self.execution_nodes of the name's status; a missing name
is a Python KeyError. -/
def setStatus (statuses : List (String × ExecStatus)) (n : String) (st : ExecStatus) :
    Except DslError (List (String × ExecStatus)) :=
  if n ∈ statuses.map Prod.fst then
    .ok (statuses.map (fun p => if p.1 = n then (n, st) else p))
  else .error (.keyError n)

/-- TestManager._execute_node with the outcome of the dispatched service or
test abstracted by an oracle (container deployment and subprocess execution
are external effects): the node ends success or failed accordingly. -/
def execNode (statuses : List (String × ExecStatus)) (n : String) (oracle : String → Bool) :
    Except DslError (Bool × List (String × ExecStatus)) :=
  if ¬ n ∈ statuses.map Prod.fst then .error (.keyError n)
  else do
    let ok := oracle n
    let st := if ok then ExecStatus.success else ExecStatus.failed
    let s' ← setStatus statuses n st
    pure (ok, s')

/-- The loop of TestManager.execute over the stored plan: a node whose
dependencies are not all successful is marked skipped; otherwise it is
dispatched and the success counter updated. -/
def tmExecLoop (sg : DiGraph) (oracle : String → Bool) :
    List String → List (String × ExecStatus) → Nat →
    Except DslError (List (String × ExecStatus) × Nat)
  | [], sts, cnt => .ok (sts, cnt)
  | n :: rest, sts, cnt => do
    let can ← canExecuteNode sg sts n
    if ¬ can then do
      let sts' ← setStatus sts n .skipped
      tmExecLoop sg oracle rest sts' cnt
    else do
      let r ← execNode sts n oracle
      tmExecLoop sg oracle rest r.2 (cnt + (if r.1 then 1 else 0))

/-- The value TestManager stores in self.execution_plan is the dict returned
by generate_execution_plan; iterating that dict in execute() yields its keys
in insertion order, and len() of it counts its keys. -/
def executionPlanKeys : List String := ["deploy", "execute"]

/-- TestManager._init_execution_nodes: one pending node per service, then
one per test. -/
def initStatuses (cfg : ConfigData) : List (String × ExecStatus) :=
  (cfg.services.map (fun s => (s.name, ExecStatus.pending)))
  ++ (cfg.tests.map (fun t => (t.name, ExecStatus.pending)))

/-- TestManager construction followed by execute(): validate the config,
initialize the execution nodes, generate the plan (the deploy/execute dict),
then iterate the stored plan — the dict's keys — checking each entry's
predecessors in the subgraph and dispatching, and finally report whether the
success count equals the plan length. -/
def tmExecute (cfg : ConfigData) (oracle : String → Bool) : Except DslError Bool := do
  let bc ← buildConfig cfg
  let _ ← verifyE cfg
  let statuses := initStatuses cfg
  let _plan ← generateExecutionPlan cfg bc.graph
  let sg := genSubgraph bc.graph defaultAllowedEdgeTypes
  let r ← tmExecLoop sg oracle executionPlanKeys statuses 0
  pure (r.2 == executionPlanKeys.length)

-- ## The chain-walk plan of the specification

/-- Modelled from the spec: the walk step of section 4.3's execution-plan
algorithm, which is missing from the source (the repository's unit tests
nevertheless assert its interleaved output): visit the service, append it,
append its unvisited triggered tests in graph order, then recurse into the
first unvisited next-service successor.  The state is the visited list and
the plan so far. -/
def specWalk (sg : DiGraph) : Nat → String → List String × List String →
    List String × List String
  | 0, _, st => st
  | fuel + 1, s, (visited, plan) =>
    if s ∈ visited then (visited, plan)
    else
      let visited1 := visited ++ [s]
      let plan1 := plan ++ [s]
      let trigTests := (sg.succPairs s).filter
        (fun p => p.2 == "trigger" && sg.ntypeOf p.1 == "test" && ¬ p.1 ∈ visited1)
      let st1 := trigTests.foldl
        (fun (st : List String × List String) p =>
          if p.1 ∈ st.1 then st else (st.1 ++ [p.1], st.2 ++ [p.1]))
        (visited1, plan1)
      let nextSvc := ((sg.succPairs s).filter
        (fun p => p.2 == "next" && sg.ntypeOf p.1 == "service" && ¬ p.1 ∈ st1.1)).head?
      match nextSvc with
      | some p => specWalk sg fuel p.1 st1
      | none => st1

/-- Modelled from the spec: section 4.3's full plan — the root services
(service nodes of the subgraph with indegree zero) in topological order,
each walked in turn with a shared visited set. -/
def specChainWalk (g : DiGraph) (allowed : List String) : List String :=
  let sg := genSubgraph g allowed
  let order := (kahnRun sg).1
  let roots := order.filter (fun n => sg.ntypeOf n == "service" && sg.indeg n == 0)
  (roots.foldl (fun st r => specWalk sg sg.names.length r st) ([], [])).2

-- ## Concrete scenarios

/-- Scenario A services: a chains to b, b chains to c and triggers t1, c
triggers t2. -/
def svcScenA_a : DslService := { name := "a", desc := "", image := "img", next := ["b"] }

/-- Scenario A service b. -/
def svcScenA_b : DslService :=
  { name := "b", desc := "", image := "img", next := ["c"], trigger := ["t1"] }

/-- Scenario A service c. -/
def svcScenA_c : DslService := { name := "c", desc := "", image := "img", trigger := ["t2"] }

/-- A shell expectation with exit code 0 and empty stdout and stderr. -/
def shellExpect0 : Expect :=
  { mode := .SHELL, exit_code := some (.int 0), stdout := some "", stderr := some "" }

/-- Scenario A test t1 (needs b). -/
def testScenA_t1 : DslTest :=
  { name := "t1", mode := .SHELL, needs := ["b"],
    runner := .shell ⟨["echo", "t1"]⟩, expect := shellExpect0 }

/-- Scenario A test t2 (needs c). -/
def testScenA_t2 : DslTest :=
  { name := "t2", mode := .SHELL, needs := ["c"],
    runner := .shell ⟨["echo", "t2"]⟩, expect := shellExpect0 }

/-- Scenario A configuration. -/
def cfgScenA : ConfigData :=
  { version := "0.1.0", name := "scenA", desc := "",
    services := [svcScenA_a, svcScenA_b, svcScenA_c],
    tests := [testScenA_t1, testScenA_t2] }

/-- The built scenario A configuration. -/
def bcScenA : BuiltConfig :=
  match buildConfig cfgScenA with
  | .ok b => b
  | .error _ => default

example : buildConfig cfgScenA = .ok bcScenA := by rfl

example :
    getTopologicalOrder bcScenA.graph defaultAllowedEdgeTypes
      = .ok ["a", "b", "c", "t1", "t2"] := by rfl

example :
    generateExecutionPlan cfgScenA bcScenA.graph
      = .ok ⟨["a", "b", "c"], ["t1", "t2"]⟩ := by rfl

example :
    specChainWalk bcScenA.graph defaultAllowedEdgeTypes
      = ["a", "b", "t1", "c", "t2"] := by rfl

/-- Scenario B services: a and b chain to each other (a cycle). -/
def svcScenB_a : DslService := { name := "a", desc := "", image := "img", next := ["b"] }

/-- Scenario B service b. -/
def svcScenB_b : DslService := { name := "b", desc := "", image := "img", next := ["a"] }

/-- Scenario B configuration (cycle, no tests). -/
def cfgScenB : ConfigData :=
  { version := "0.1.0", name := "scenB", desc := "",
    services := [svcScenB_a, svcScenB_b], tests := [] }

/-- The built scenario B configuration (construction succeeds; only the DAG
check and the sort reject the cycle). -/
def bcScenB : BuiltConfig :=
  match buildConfig cfgScenB with
  | .ok b => b
  | .error _ => default

example : buildConfig cfgScenB = .ok bcScenB := by rfl

example : isValidDag bcScenB.graph defaultAllowedEdgeTypes = false := by rfl

example :
    getTopologicalOrder bcScenB.graph defaultAllowedEdgeTypes = .error .cyclicGraph := by
  rfl

/-- Scenario C configuration: a service whose trigger names a test that does
not exist. -/
def cfgScenC : ConfigData :=
  { version := "0.1.0", name := "scenC", desc := "",
    services := [{ name := "a", desc := "", image := "img", trigger := ["t_missing"] }],
    tests := [] }

example :
    buildConfig cfgScenC = .error (.semanticCheckFailed [] [] [("a", "t_missing")] []) := by
  rfl

/-- The isolated-service configuration: s2 triggers t, the service s touches
no allowed edge, and t needs s.  Semantically valid, yet s is dropped from
the subgraph and hence from the deploy order. -/
def cfgIsolated : ConfigData :=
  { version := "0.1.0", name := "isolated", desc := "",
    services := [{ name := "s2", desc := "", image := "img", trigger := ["t"] },
                 { name := "s", desc := "", image := "img" }],
    tests := [{ name := "t", mode := .SHELL, needs := ["s"],
                runner := .shell ⟨["echo", "t"]⟩, expect := shellExpect0 }] }

/-- The built isolated-service configuration. -/
def bcIsolated : BuiltConfig :=
  match buildConfig cfgIsolated with
  | .ok b => b
  | .error _ => default

example : buildConfig cfgIsolated = .ok bcIsolated := by rfl

example : verifyE cfgIsolated = .ok () := by rfl

example :
    getTopologicalOrder bcIsolated.graph defaultAllowedEdgeTypes = .ok ["s2", "t"] := by
  rfl

example :
    generateExecutionPlan cfgIsolated bcIsolated.graph
      = .error (.missingDependencies "t" ["s"]) := by rfl

example :
    ∀ oracle, tmExecute cfgScenA oracle = .error (.nodeNotInGraph "deploy") :=
  fun _ => rfl

/-- Scenario G http runner. -/
def httpScenG : HttpRunner :=
  { header := "Content-Type: text/plain", method := .POST,
    payload := some "\x7b\x7d", endpoint := "http://h/" }

example :
    httpScenG.getCommand
      = "curl -H \x27Content-Type: text/plain\x27 -X POST -d \x27\x7b\x7d\x27 \x27http://h/\x27" := by
  rfl

/-- Scenario G docker runner. -/
def dockerScenG : DockerRunner := { cntr_name := "c", cmd := ["echo", "hi"] }

example : dockerScenG.getCommand = "docker exec c echo hi" := by rfl

/-- The failing input of the exit-code-only test check: a shell test that
expects stdout "hello", and an observed result with matching exit code but
empty stdout. -/
def testExpectHello : DslTest :=
  { name := "t_hello", mode := .SHELL, needs := [],
    runner := .shell ⟨["echo", "hi"]⟩,
    expect := { mode := .SHELL, exit_code := some (.int 0),
                stdout := some "hello", stderr := some "" } }

/-- The observed subprocess result for the failing input. -/
def resultEmptyOut : SubprocResult := { returncode := 0, stdout := "", stderr := "" }

example : executeTestCheck testExpectHello resultEmptyOut = (.success, none) := by rfl

example : specShellDockerCheck testExpectHello.expect resultEmptyOut = false := by rfl

-- ## Rendering theorems (claim C5)

/-- The http token sequence as the specification and claim word it: curl,
then the quoted header when a header is present, then -X and the method,
then -d and the quoted payload only when the method is not GET and not
DELETE and a payload is present, then the quoted endpoint. -/
def specHttpTokens (r : HttpRunner) : List String :=
  ["curl"]
  ++ (if r.header ≠ "" then ["-H", "\x27" ++ r.header ++ "\x27"] else [])
  ++ ["-X", r.method.value]
  ++ (if truthyOpt r.payload ∧ r.method ≠ .GET ∧ r.method ≠ .DELETE then
        ["-d", "\x27" ++ r.payload.getD "" ++ "\x27"]
      else [])
  ++ ["\x27" ++ r.endpoint ++ "\x27"]

/-- The http rendering of the specification: the tokens, space-joined. -/
def specHttpRender (r : HttpRunner) : String :=
  pyJoin " " (specHttpTokens r)

/-- The payload conditions of the source (membership in the GET/DELETE
list) and of the specification (two disequalities) agree. -/
lemma http_payload_cond_iff (r : HttpRunner) :
    (truthyOpt r.payload ∧ r.method ∉ [HttpMethod.GET, HttpMethod.DELETE])
      ↔ (truthyOpt r.payload ∧ r.method ≠ .GET ∧ r.method ≠ .DELETE) := by
  simp [not_or]

/-- The source http rendering equals the specification rendering. -/
lemma http_getCommand_eq_spec (r : HttpRunner) : r.getCommand = specHttpRender r := by
  by_cases h1 : r.header = "" <;>
    by_cases h2 : truthyOpt r.payload ∧ r.method ≠ .GET ∧ r.method ≠ .DELETE <;>
      simp [HttpRunner.getCommand, specHttpRender, specHttpTokens, h1, h2, not_or, pyJoin]

-- ## Idempotent evaluation (claim C6)

/-- A service spec's observable state after evaluation depends only on the
construction-time snapshot and the bindings just applied; the snapshot is
never modified. -/
lemma evaluate_state (d : DslService) (b : List (String × String)) :
    (DslServiceObj.init d).evaluate b = ⟨evalServiceData b d, d⟩ := rfl

-- ## Variable lemmas (claim C7)

/-- Keeping the old value on a failed assignment: the non-lazy case. -/
lemma setValueOrKeep_nonlazy (v : Variable) (nv : String)
    (h : strStartsWith v.key "$" = false) : v.setValueOrKeep nv = v := by
  unfold Variable.setValueOrKeep Variable.setValue
  simp [h]

-- ## Dictionary lemmas (claim C10)

/-- Unfolding lemma for lookup at a cons cell. -/
lemma alookup_cons {α : Type} (p : String × α) (rest : List (String × α)) (k : String) :
    alookup (p :: rest) k = if p.1 = k then some p.2 else alookup rest k := by
  cases p
  rfl

/-- A key absent from the entries looks up to nothing. -/
lemma alookup_eq_none_of_not_mem {α : Type} (d : List (String × α)) (k : String)
    (h : ¬ k ∈ d.map Prod.fst) : alookup d k = none := by
  induction d with
  | nil => rfl
  | cons p rest ih =>
    simp only [List.map_cons, List.mem_cons, not_or] at h
    have h1 : ¬ p.1 = k := fun he => h.1 he.symm
    rw [alookup_cons, if_neg h1]
    exact ih h.2

/-- Lookup distributes over append, the first list winning. -/
lemma alookup_append {α : Type} (d e : List (String × α)) (k : String) :
    alookup (d ++ e) k =
      match alookup d k with
      | some v => some v
      | none => alookup e k := by
  induction d with
  | nil => rfl
  | cons p rest ih =>
    rw [List.cons_append, alookup_cons, alookup_cons]
    by_cases hp : p.1 = k
    · rw [if_pos hp, if_pos hp]
    · rw [if_neg hp, if_neg hp]
      exact ih

/-- Updating the entries of one key does not change other keys' lookups. -/
lemma alookup_mapUpdate_other {α : Type} (d : List (String × α)) (k k' : String) (v : α)
    (h : k' ≠ k) :
    alookup (d.map (fun p => if p.1 = k then (k, v) else p)) k' = alookup d k' := by
  induction d with
  | nil => rfl
  | cons p rest ih =>
    rw [List.map_cons, alookup_cons, alookup_cons]
    by_cases hp : p.1 = k
    · rw [if_pos hp]
      have h1 : ¬ (k, v).1 = k' := fun he => h he.symm
      have h2 : ¬ p.1 = k' := fun he => h (by rw [← he, hp])
      rw [if_neg h1, if_neg h2]
      exact ih
    · rw [if_neg hp]
      by_cases hq : p.1 = k'
      · rw [if_pos hq, if_pos hq]
      · rw [if_neg hq, if_neg hq]
        exact ih

/-- Updating the entries of a present key makes it look up to the new
value. -/
lemma alookup_mapUpdate_self {α : Type} (d : List (String × α)) (k : String) (v : α)
    (h : k ∈ d.map Prod.fst) :
    alookup (d.map (fun p => if p.1 = k then (k, v) else p)) k = some v := by
  induction d with
  | nil => simp at h
  | cons p rest ih =>
    rw [List.map_cons, alookup_cons]
    by_cases hp : p.1 = k
    · rw [if_pos hp]
      have h1 : (k, v).1 = k := rfl
      rw [if_pos h1]
    · rw [if_neg hp]
      have h2 : ¬ (p.1 = k) := hp
      rw [if_neg h2]
      simp only [List.map_cons, List.mem_cons] at h
      rcases h with h | h
      · exact absurd h.symm hp
      · exact ih h

/-- Inserting a key makes it look up to the inserted value. -/
lemma alookup_dictInsert_self {α : Type} (d : List (String × α)) (k : String) (v : α) :
    alookup (dictInsert d k v) k = some v := by
  unfold dictInsert
  by_cases hmem : k ∈ d.map Prod.fst
  · rw [if_pos hmem]
    exact alookup_mapUpdate_self d k v hmem
  · rw [if_neg hmem, alookup_append, alookup_eq_none_of_not_mem d k hmem]
    rw [alookup_cons, if_pos rfl]

/-- Inserting a key leaves every other key's lookup unchanged. -/
lemma alookup_dictInsert_other {α : Type} (d : List (String × α)) (k k' : String) (v : α)
    (h : k' ≠ k) : alookup (dictInsert d k v) k' = alookup d k' := by
  unfold dictInsert
  by_cases hmem : k ∈ d.map Prod.fst
  · rw [if_pos hmem]
    exact alookup_mapUpdate_other d k k' v h
  · rw [if_neg hmem, alookup_append]
    cases hd : alookup d k' with
    | some w => rfl
    | none =>
      rw [alookup_cons, if_neg (fun he : k = k' => h he.symm)]
      rfl

/-- The last variable of the list carrying the given key, if any. -/
def lastVarWith : List Variable → String → Option Variable
  | [], _ => none
  | v :: rest, k =>
    match lastVarWith rest k with
    | some w => some w
    | none => if v.key = k then some v else none

/-- Characterization of the two input indices built by the constructor's
inputs loop over arbitrary accumulators: the key index maps every key to the
last variable carrying it, and the lazy index does the same for keys
starting with the sigil. -/
lemma buildInputDicts_lookup_aux (inputs : List Variable) :
    ∀ (d1 d2 : List (String × Variable)) (k : String),
      (alookup (inputs.foldl
          (fun (p : List (String × Variable) × List (String × Variable)) v =>
            (dictInsert p.1 v.key v,
             if v.isLazy then dictInsert p.2 v.key v else p.2))
          (d1, d2)).1 k =
        match lastVarWith inputs k with
        | some w => some w
        | none => alookup d1 k)
      ∧ (alookup (inputs.foldl
          (fun (p : List (String × Variable) × List (String × Variable)) v =>
            (dictInsert p.1 v.key v,
             if v.isLazy then dictInsert p.2 v.key v else p.2))
          (d1, d2)).2 k =
        if strStartsWith k "$" then
          match lastVarWith inputs k with
          | some w => some w
          | none => alookup d2 k
        else alookup d2 k) := by
  induction inputs with
  | nil =>
    intro d1 d2 k
    refine ⟨rfl, ?_⟩
    by_cases hk : strStartsWith k "$" = true
    · rw [if_pos hk]
      rfl
    · rw [if_neg hk]
      rfl
  | cons v rest ih =>
    intro d1 d2 k
    have step1 := (ih (dictInsert d1 v.key v)
      (if v.isLazy then dictInsert d2 v.key v else d2) k).1
    have step2 := (ih (dictInsert d1 v.key v)
      (if v.isLazy then dictInsert d2 v.key v else d2) k).2
    refine ⟨?_, ?_⟩
    · simp only [List.foldl_cons]
      simp only [List.foldl_cons] at step1
      rw [step1]
      cases hrest : lastVarWith rest k with
      | some w => simp only [lastVarWith, hrest]
      | none =>
        simp only [lastVarWith, hrest]
        by_cases hk : v.key = k
        · rw [if_pos hk, ← hk, alookup_dictInsert_self]
        · rw [if_neg hk, alookup_dictInsert_other d1 v.key k v (fun he => hk he.symm)]
    · simp only [List.foldl_cons]
      simp only [List.foldl_cons] at step2
      rw [step2]
      by_cases hlz : strStartsWith k "$" = true
      · rw [if_pos hlz, if_pos hlz]
        cases hrest : lastVarWith rest k with
        | some w => simp only [lastVarWith, hrest]
        | none =>
          simp only [lastVarWith, hrest]
          by_cases hk : v.key = k
          · have hvl : v.isLazy = true := by
              unfold Variable.isLazy
              rw [hk]
              exact hlz
            rw [if_pos hk, hvl, if_pos rfl, ← hk, alookup_dictInsert_self]
          · rw [if_neg hk]
            by_cases hvl : v.isLazy = true
            · rw [hvl, if_pos rfl,
                alookup_dictInsert_other d2 v.key k v (fun he => hk he.symm)]
            · rw [Bool.not_eq_true] at hvl
              rw [hvl]
              rfl
      · rw [if_neg hlz, if_neg hlz]
        by_cases hk : v.key = k
        · have hvl : v.isLazy = false := by
            unfold Variable.isLazy
            rw [hk, Bool.eq_false_iff]
            exact hlz
          rw [hvl]
          rfl
        · by_cases hvl : v.isLazy = true
          · rw [hvl, if_pos rfl,
              alookup_dictInsert_other d2 v.key k v (fun he => hk he.symm)]
          · rw [Bool.not_eq_true] at hvl
            rw [hvl]
            rfl

-- ## Duplicate-name and lookup lemmas (claims C3, C9)

/-- A scan that reports no duplicate saw a duplicate-free list, none of it
already seen. -/
lemma firstDupAux_none (l : List String) : ∀ seen, firstDupAux seen l = none →
    l.Nodup ∧ ∀ x ∈ l, ¬ x ∈ seen := by
  induction l with
  | nil =>
    intro seen _
    exact ⟨List.nodup_nil, by simp⟩
  | cons x xs ih =>
    intro seen h
    unfold firstDupAux at h
    by_cases hx : x ∈ seen
    · rw [if_pos hx] at h
      exact absurd h (by simp)
    · rw [if_neg hx] at h
      obtain ⟨hnd, hni⟩ := ih (seen ++ [x]) h
      have hxxs : ¬ x ∈ xs := fun hmem => hni x hmem (by simp)
      refine ⟨List.nodup_cons.mpr ⟨hxxs, hnd⟩, ?_⟩
      intro y hy
      rcases List.mem_cons.mp hy with rfl | hy'
      · exact hx
      · intro hys
        exact hni y hy' (by simp [hys])

/-- No first duplicate means the list has distinct elements. -/
lemma firstDup_none_nodup (l : List String) (h : firstDup l = none) : l.Nodup :=
  (firstDupAux_none l [] h).1

/-- A successfully built configuration passed the duplicate-test-name
check. -/
lemma buildConfig_ok_nodup_tests (cfg : ConfigData) (bc : BuiltConfig)
    (hb : buildConfig cfg = .ok bc) : (testNames cfg).Nodup := by
  unfold buildConfig at hb
  by_cases hv : ¬ cfg.version ∈ SUPPORTED_VERSION
  · rw [if_pos hv] at hb
    exact absurd hb (by simp)
  · rw [if_neg hv] at hb
    cases hs : firstDup (serviceNames cfg) with
    | some n =>
      simp only [hs] at hb
      exact Except.noConfusion hb
    | none =>
      simp only [hs] at hb
      cases ht : firstDup (testNames cfg) with
      | some n =>
        simp only [ht] at hb
        exact Except.noConfusion hb
      | none => exact firstDup_none_nodup _ ht

/-- In a list of tests with distinct names, find? by a member's name returns
that member. -/
lemma find?_name_of_mem_nodup (tests : List DslTest)
    (hnd : (tests.map (fun t => t.name)).Nodup)
    (t : DslTest) (ht : t ∈ tests) :
    tests.find? (fun x => x.name == t.name) = some t := by
  induction tests with
  | nil => simp at ht
  | cons h rest ih =>
    rw [List.map_cons, List.nodup_cons] at hnd
    by_cases hh : h.name = t.name
    · rcases List.mem_cons.mp ht with rfl | ht'
      · rw [List.find?_cons_of_pos _ (by simp)]
      · exfalso
        have : t.name ∈ rest.map (fun t => t.name) := List.mem_map_of_mem _ ht'
        rw [← hh] at this
        exact hnd.1 this
    · rcases List.mem_cons.mp ht with rfl | ht'
      · exact absurd rfl hh
      · rw [List.find?_cons_of_neg _ (by simpa using hh)]
        exact ih hnd.2 ht'

/-- A name present among the tests' names is found by find?. -/
lemma find?_name_of_mem (tests : List DslTest) (node : String)
    (h : node ∈ tests.map (fun t => t.name)) :
    ∃ x, tests.find? (fun t => t.name == node) = some x := by
  induction tests with
  | nil => simp at h
  | cons hd rest ih =>
    by_cases hh : hd.name = node
    · exact ⟨hd, List.find?_cons_of_pos _ (by simpa using hh)⟩
    · rw [List.map_cons, List.mem_cons] at h
      rcases h with h | h
      · exact absurd h.symm hh
      · obtain ⟨x, hx⟩ := ih h
        exact ⟨x, by rw [List.find?_cons_of_neg _ (by simpa using hh)]; exact hx⟩

/-- If some pending node of the order is a test with a need outside the
deploy list, the execute loop raises the missing-dependencies error
(provided every already executed test had no missing needs). -/
lemma genExecLoop_error (tests : List DslTest) (tnames deploy : List String)
    (hfind : ∀ node, node ∈ tnames → ∃ x, tests.find? (fun t => t.name == node) = some x) :
    ∀ (rest executed acc : List String),
      (∀ x ∈ executed, ∀ tobj, tests.find? (fun t => t.name == x) = some tobj →
        (tobj.needs.filter (fun y => ¬ y ∈ deploy)).isEmpty = true) →
      (∃ node, node ∈ rest ∧ node ∈ tnames ∧
        ∃ tobj, tests.find? (fun t => t.name == node) = some tobj ∧
          ¬ (tobj.needs.filter (fun y => ¬ y ∈ deploy)).isEmpty = true) →
      ∃ tn miss, genExecLoop tests tnames deploy rest executed acc
        = .error (.missingDependencies tn miss) := by
  intro rest
  induction rest with
  | nil =>
    intro executed acc _ hex
    obtain ⟨node, hmem, _⟩ := hex
    simp at hmem
  | cons node rest' ih =>
    intro executed acc hinv hex
    by_cases hcond : node ∈ tnames ∧ ¬ node ∈ executed
    · obtain ⟨x, hx⟩ := hfind node hcond.1
      by_cases hmiss : (x.needs.filter (fun y => ¬ y ∈ deploy)).isEmpty = true
      · have hstep : genExecLoop tests tnames deploy (node :: rest') executed acc
            = genExecLoop tests tnames deploy rest' (executed ++ [node]) (acc ++ [node]) := by
          simp only [genExecLoop, if_pos hcond, hx, if_pos hmiss]
        rw [hstep]
        apply ih
        · intro z hz tobj htobj
          rcases List.mem_append.mp hz with hz' | hz'
          · exact hinv z hz' tobj htobj
          · have hzn : z = node := by simpa using hz'
            subst hzn
            rw [hx] at htobj
            cases htobj
            exact hmiss
        · obtain ⟨w, hwmem, hwt, tobj, htobj, hne⟩ := hex
          rcases List.mem_cons.mp hwmem with heq | hw'
          · subst heq
            rw [hx] at htobj
            cases htobj
            exact absurd hmiss hne
          · exact ⟨w, hw', hwt, tobj, htobj, hne⟩
      · refine ⟨node, x.needs.filter (fun y => ¬ y ∈ deploy), ?_⟩
        simp only [genExecLoop, if_pos hcond, hx, if_neg hmiss]
    · have hstep : genExecLoop tests tnames deploy (node :: rest') executed acc
          = genExecLoop tests tnames deploy rest' executed acc := by
        simp only [genExecLoop, if_neg hcond]
      rw [hstep]
      apply ih executed acc hinv
      obtain ⟨w, hwmem, hwt, tobj, htobj, hne⟩ := hex
      rcases List.mem_cons.mp hwmem with heq | hw'
      · exfalso
        subst heq
        have hex' : w ∈ executed := by
          by_contra hnex
          exact hcond ⟨hwt, hnex⟩
        exact hne (hinv w hex' tobj htobj)
      · exact ⟨w, hw', hwt, tobj, htobj, hne⟩

/-- A configuration with a dangling trigger reference (and a supported
version and duplicate-free names) fails construction at the semantic check,
with a nonempty trigger-findings category. -/
lemma buildConfig_missing_trigger (cfg : ConfigData)
    (hv : cfg.version ∈ SUPPORTED_VERSION)
    (hs : firstDup (serviceNames cfg) = none)
    (ht : firstDup (testNames cfg) = none)
    (s : DslService) (hmem : s ∈ cfg.services)
    (t : String) (htrig : t ∈ s.trigger) (hmiss : ¬ t ∈ testNames cfg) :
    buildConfig cfg = .error (.semanticCheckFailed
      (missingNextFindings cfg) (missingDependsFindings cfg)
      (missingTriggerFindings cfg) (missingNeedsFindings cfg))
    ∧ missingTriggerFindings cfg ≠ [] := by
  have htf : (s.name, t) ∈ missingTriggerFindings cfg := by
    unfold missingTriggerFindings
    refine List.mem_flatMap.mpr ⟨s, hmem, ?_⟩
    exact List.mem_map.mpr ⟨t, List.mem_filter.mpr ⟨htrig, by simpa using hmiss⟩, rfl⟩
  have hne : missingTriggerFindings cfg ≠ [] := by
    intro h
    rw [h] at htf
    simp at htf
  have hcond : ¬ (missingNextFindings cfg = [] ∧ missingDependsFindings cfg = []
      ∧ missingTriggerFindings cfg = [] ∧ missingNeedsFindings cfg = []) :=
    fun hc => hne hc.2.2.1
  have hverr : verifyE cfg = .error (.semanticCheckFailed
      (missingNextFindings cfg) (missingDependsFindings cfg)
      (missingTriggerFindings cfg) (missingNeedsFindings cfg)) := by
    simp only [verifyE]
    rw [if_neg hcond]
  refine ⟨?_, hne⟩
  unfold buildConfig
  rw [if_neg (not_not_intro hv)]
  simp only [hs, ht, hverr]
  rfl

-- ## Graph well-formedness (claim C8)

/-- Structural invariants of every graph built through the node and edge
operations: distinct node names, duplicate-free adjacency targets, and
adjacency targets that are themselves nodes. -/
structure WFGraph (g : DiGraph) : Prop where
  namesNodup : g.names.Nodup
  outNodup : ∀ vt ∈ g.verts, (vt.out.map Prod.fst).Nodup
  outClosed : ∀ vt ∈ g.verts, ∀ p ∈ vt.out, p.1 ∈ g.names

/-- The empty graph is well-formed. -/
lemma wf_empty : WFGraph ⟨[]⟩ := by
  refine ⟨List.nodup_nil, ?_, ?_⟩ <;> intro vt hvt <;> simp at hvt

/-- Names after ensuring a vertex exists. -/
lemma addVertPlain_names (g : DiGraph) (n : String) :
    (g.addVertPlain n).names = if n ∈ g.names then g.names else g.names ++ [n] := by
  unfold DiGraph.addVertPlain
  by_cases h : n ∈ g.names
  · rw [if_pos h, if_pos h]
  · rw [if_neg h, if_neg h]
    unfold DiGraph.names
    simp

/-- The ensured vertex is a node afterwards. -/
lemma mem_addVertPlain_self (g : DiGraph) (n : String) : n ∈ (g.addVertPlain n).names := by
  rw [addVertPlain_names]
  by_cases h : n ∈ g.names
  · rw [if_pos h]
    exact h
  · rw [if_neg h]
    simp

/-- Ensuring a vertex keeps every existing node. -/
lemma mem_addVertPlain_mono (g : DiGraph) (n m : String) (h : m ∈ g.names) :
    m ∈ (g.addVertPlain n).names := by
  rw [addVertPlain_names]
  by_cases hn : n ∈ g.names
  · rw [if_pos hn]
    exact h
  · rw [if_neg hn]
    simp [h]

/-- Ensuring a vertex preserves well-formedness. -/
lemma wf_addVertPlain (g : DiGraph) (n : String) (hwf : WFGraph g) :
    WFGraph (g.addVertPlain n) := by
  unfold DiGraph.addVertPlain
  by_cases h : n ∈ g.names
  · rw [if_pos h]
    exact hwf
  · rw [if_neg h]
    refine ⟨?_, ?_, ?_⟩
    · show ((g.verts ++ [(⟨n, "", []⟩ : Vert)]).map Vert.name).Nodup
      rw [List.map_append]
      simp only [List.map_cons, List.map_nil]
      rw [List.nodup_append]
      refine ⟨hwf.namesNodup, List.nodup_singleton n, ?_⟩
      intro a ha hb
      rw [List.mem_singleton] at hb
      subst hb
      exact h ha
    · intro vt hvt
      rcases List.mem_append.mp hvt with hvt | hvt
      · exact hwf.outNodup vt hvt
      · have hv : vt = ⟨n, "", []⟩ := by simpa using hvt
        subst hv
        simp
    · intro vt hvt p hp
      have hnames : (DiGraph.mk (g.verts ++ [(⟨n, "", []⟩ : Vert)])).names = g.names ++ [n] := by
        unfold DiGraph.names
        simp
      rw [hnames]
      rcases List.mem_append.mp hvt with hvt | hvt
      · exact List.mem_append_left _ (hwf.outClosed vt hvt p hp)
      · have hv : vt = ⟨n, "", []⟩ := by simpa using hvt
        subst hv
        simp at hp

/-- Names are untouched by updating an existing node's attribute, and extend
by the node otherwise. -/
lemma addNodeAttr_names (g : DiGraph) (n t : String) :
    (g.addNodeAttr n t).names = if n ∈ g.names then g.names else g.names ++ [n] := by
  unfold DiGraph.addNodeAttr
  by_cases h : n ∈ g.names
  · rw [if_pos h, if_pos h]
    unfold DiGraph.names
    rw [List.map_map]
    apply List.map_congr_left
    intro vt _
    by_cases hv : vt.name = n <;> simp [hv]
  · rw [if_neg h, if_neg h]
    unfold DiGraph.names
    simp

/-- Updating a node's attribute preserves well-formedness. -/
lemma wf_addNodeAttr (g : DiGraph) (n t : String) (hwf : WFGraph g) :
    WFGraph (g.addNodeAttr n t) := by
  unfold DiGraph.addNodeAttr
  by_cases h : n ∈ g.names
  · rw [if_pos h]
    have hnm : (DiGraph.mk (g.verts.map fun vt =>
        if vt.name = n then { vt with ntype := t } else vt)).names = g.names := by
      unfold DiGraph.names
      rw [List.map_map]
      apply List.map_congr_left
      intro vt _
      by_cases hv : vt.name = n <;> simp [hv]
    refine ⟨?_, ?_, ?_⟩
    · rw [hnm]
      exact hwf.namesNodup
    · intro vt hvt
      obtain ⟨w, hw, rfl⟩ := List.mem_map.mp hvt
      by_cases hv : w.name = n
      · rw [if_pos hv]
        exact hwf.outNodup w hw
      · rw [if_neg hv]
        exact hwf.outNodup w hw
    · intro vt hvt p hp
      rw [hnm]
      obtain ⟨w, hw, rfl⟩ := List.mem_map.mp hvt
      by_cases hv : w.name = n
      · rw [if_pos hv] at hp
        exact hwf.outClosed w hw p hp
      · rw [if_neg hv] at hp
        exact hwf.outClosed w hw p hp
  · rw [if_neg h]
    refine ⟨?_, ?_, ?_⟩
    · show ((g.verts ++ [(⟨n, t, []⟩ : Vert)]).map Vert.name).Nodup
      rw [List.map_append]
      simp only [List.map_cons, List.map_nil]
      rw [List.nodup_append]
      refine ⟨hwf.namesNodup, List.nodup_singleton n, ?_⟩
      intro a ha hb
      rw [List.mem_singleton] at hb
      subst hb
      exact h ha
    · intro vt hvt
      rcases List.mem_append.mp hvt with hvt | hvt
      · exact hwf.outNodup vt hvt
      · have hv : vt = ⟨n, t, []⟩ := by simpa using hvt
        subst hv
        simp
    · intro vt hvt p hp
      have hnames2 : (DiGraph.mk (g.verts ++ [(⟨n, t, []⟩ : Vert)])).names = g.names ++ [n] := by
        unfold DiGraph.names
        simp
      rw [hnames2]
      rcases List.mem_append.mp hvt with hvt | hvt
      · exact List.mem_append_left _ (hwf.outClosed vt hvt p hp)
      · have hv : vt = ⟨n, t, []⟩ := by simpa using hvt
        subst hv
        simp at hp

/-- The target list after an edge update: unchanged for an existing target,
extended by the new target otherwise. -/
lemma updateOut_fst (out : List (String × String)) (v t : String) :
    (updateOut out v t).map Prod.fst =
      if v ∈ out.map Prod.fst then out.map Prod.fst else out.map Prod.fst ++ [v] := by
  unfold updateOut
  by_cases h : v ∈ out.map Prod.fst
  · rw [if_pos h, if_pos h, List.map_map]
    apply List.map_congr_left
    intro p _
    by_cases hp : p.1 = v <;> simp [hp]
  · rw [if_neg h, if_neg h]
    simp

/-- Adding an edge does not change the names beyond ensuring the two
endpoints. -/
lemma addEdge_names (g : DiGraph) (u v t : String) :
    (g.addEdge u v t).names = ((g.addVertPlain u).addVertPlain v).names := by
  unfold DiGraph.addEdge
  unfold DiGraph.names
  rw [List.map_map]
  apply List.map_congr_left
  intro vt _
  by_cases hv : vt.name = u <;> simp [hv]

/-- Both endpoints are nodes after adding an edge. -/
lemma mem_addEdge_endpoints (g : DiGraph) (u v t : String) :
    u ∈ (g.addEdge u v t).names ∧ v ∈ (g.addEdge u v t).names := by
  rw [addEdge_names]
  exact ⟨mem_addVertPlain_mono _ v u (mem_addVertPlain_self g u),
    mem_addVertPlain_self _ v⟩

/-- Adding an edge preserves well-formedness. -/
lemma wf_addEdge (g : DiGraph) (u v t : String) (hwf : WFGraph g) :
    WFGraph (g.addEdge u v t) := by
  set g2 := (g.addVertPlain u).addVertPlain v with hg2
  have hwf2 : WFGraph g2 := wf_addVertPlain _ v (wf_addVertPlain g u hwf)
  have hvmem : v ∈ g2.names := mem_addVertPlain_self _ v
  have hnames : (g.addEdge u v t).names = g2.names := addEdge_names g u v t
  have hverts : (g.addEdge u v t).verts =
      g2.verts.map (fun vt => if vt.name = u then { vt with out := updateOut vt.out v t } else vt) := by
    rfl
  refine ⟨?_, ?_, ?_⟩
  · rw [hnames]
    exact hwf2.namesNodup
  · intro vt hvt
    rw [hverts] at hvt
    obtain ⟨w, hw, rfl⟩ := List.mem_map.mp hvt
    by_cases hv : w.name = u
    · rw [if_pos hv]
      show ((updateOut w.out v t).map Prod.fst).Nodup
      rw [updateOut_fst]
      by_cases hmem : v ∈ w.out.map Prod.fst
      · rw [if_pos hmem]
        exact hwf2.outNodup w hw
      · rw [if_neg hmem]
        rw [List.nodup_append]
        refine ⟨hwf2.outNodup w hw, List.nodup_singleton v, ?_⟩
        intro a ha hb
        rw [List.mem_singleton] at hb
        subst hb
        exact hmem ha
    · rw [if_neg hv]
      exact hwf2.outNodup w hw
  · intro vt hvt p hp
    rw [hnames]
    rw [hverts] at hvt
    obtain ⟨w, hw, rfl⟩ := List.mem_map.mp hvt
    by_cases hv : w.name = u
    · rw [if_pos hv] at hp
      show p.1 ∈ g2.names
      unfold updateOut at hp
      by_cases hmem : v ∈ w.out.map Prod.fst
      · rw [if_pos hmem] at hp
        obtain ⟨q, hq, rfl⟩ := List.mem_map.mp hp
        by_cases hq1 : q.1 = v
        · rw [if_pos hq1]
          exact hvmem
        · rw [if_neg hq1]
          exact hwf2.outClosed w hw q hq
      · rw [if_neg hmem] at hp
        rcases List.mem_append.mp hp with hp | hp
        · exact hwf2.outClosed w hw p hp
        · have hpv : p = (v, t) := by simpa using hp
          subst hpv
          exact hvmem
    · rw [if_neg hv] at hp
      exact hwf2.outClosed w hw p hp

/-- Folding a well-formedness-preserving step preserves well-formedness. -/
lemma wf_foldl_step {β : Type} (step : DiGraph → β → DiGraph)
    (hstep : ∀ gr b, WFGraph gr → WFGraph (step gr b)) :
    ∀ (l : List β) (g0 : DiGraph), WFGraph g0 → WFGraph (l.foldl step g0) := by
  intro l
  induction l with
  | nil =>
    intro g0 h
    exact h
  | cons b bs ih =>
    intro g0 h
    exact ih _ (hstep g0 b h)

/-- Every generated subgraph is well-formed (it is rebuilt from the empty
graph through the node and edge operations). -/
lemma wf_genSubgraph (g : DiGraph) (allowed : List String) :
    WFGraph (genSubgraph g allowed) := by
  unfold genSubgraph
  apply wf_foldl_step
  · intro gr e h
    by_cases he : e.2.2 ∈ allowed
    · rw [if_pos he]
      exact wf_addNodeAttr _ _ _ (wf_addNodeAttr _ _ _ (wf_addEdge _ _ _ _ h))
    · rw [if_neg he]
      exact h
  · exact wf_empty

-- ## Graph relation lemmas (claim C8)

/-- In a graph with distinct names, find? by a member vertex's name returns
that vertex. -/
lemma find?_vert_of_mem (verts : List Vert) (hnd : (verts.map Vert.name).Nodup)
    (vt : Vert) (hvt : vt ∈ verts) :
    verts.find? (fun x => x.name == vt.name) = some vt := by
  induction verts with
  | nil => simp at hvt
  | cons h rest ih =>
    rw [List.map_cons, List.nodup_cons] at hnd
    by_cases hh : h.name = vt.name
    · rcases List.mem_cons.mp hvt with rfl | hvt'
      · rw [List.find?_cons_of_pos _ (by simp)]
      · exfalso
        have : vt.name ∈ rest.map Vert.name := List.mem_map_of_mem _ hvt'
        rw [← hh] at this
        exact hnd.1 this
    · rcases List.mem_cons.mp hvt with rfl | hvt'
      · exact absurd rfl hh
      · rw [List.find?_cons_of_neg _ (by simpa using hh)]
        exact ih hnd.2 hvt'

/-- The successor pairs of a member vertex are its adjacency. -/
lemma succPairs_of_mem (g : DiGraph) (hnd : g.names.Nodup) (vt : Vert)
    (hvt : vt ∈ g.verts) : g.succPairs vt.name = vt.out := by
  unfold DiGraph.succPairs
  rw [find?_vert_of_mem g.verts hnd vt hvt]

/-- Successor lists of a well-formed graph are duplicate-free. -/
lemma succList_nodup (g : DiGraph) (hwf : WFGraph g) (u : String) :
    (g.succList u).Nodup := by
  unfold DiGraph.succList DiGraph.succPairs
  cases hf : g.verts.find? (fun x => x.name == u) with
  | none => simp
  | some vt => exact hwf.outNodup vt (List.mem_of_find?_eq_some hf)

/-- Successors of a well-formed graph are nodes. -/
lemma succList_closed (g : DiGraph) (hwf : WFGraph g) (u x : String)
    (hx : x ∈ g.succList u) : x ∈ g.names := by
  unfold DiGraph.succList DiGraph.succPairs at hx
  cases hf : g.verts.find? (fun x => x.name == u) with
  | none =>
    rw [hf] at hx
    simp at hx
  | some vt =>
    rw [hf] at hx
    obtain ⟨p, hp, rfl⟩ := List.mem_map.mp hx
    exact hwf.outClosed vt (List.mem_of_find?_eq_some hf) p hp

/-- The source of any edge is a node. -/
lemma edge_src_mem (g : DiGraph) (u v : String) (h : EdgeRel g u v) : u ∈ g.names := by
  unfold EdgeRel DiGraph.succList DiGraph.succPairs at h
  cases hf : g.verts.find? (fun x => x.name == u) with
  | none =>
    rw [hf] at h
    simp at h
  | some vt =>
    have h1 : vt.name = u := by simpa using List.find?_some hf
    rw [← h1]
    exact List.mem_map_of_mem _ (List.mem_of_find?_eq_some hf)

/-- Membership in the predecessor list characterizes the edge relation. -/
lemma mem_predList_iff (g : DiGraph) (hwf : WFGraph g) (u v : String) :
    u ∈ g.predList v ↔ EdgeRel g u v := by
  unfold DiGraph.predList EdgeRel DiGraph.succList
  constructor
  · intro h
    obtain ⟨vt, hvt, rfl⟩ := List.mem_map.mp h
    obtain ⟨hvt', hany⟩ := List.mem_filter.mp hvt
    rw [succPairs_of_mem g hwf.namesNodup vt hvt']
    obtain ⟨p, hp, hpv⟩ := List.any_eq_true.mp hany
    have hpv' : p.1 = v := by simpa using hpv
    rw [← hpv']
    exact List.mem_map_of_mem _ hp
  · intro h
    unfold DiGraph.succPairs at h
    cases hf : g.verts.find? (fun x => x.name == u) with
    | none =>
      rw [hf] at h
      simp at h
    | some vt =>
      rw [hf] at h
      obtain ⟨p, hp, rfl⟩ := List.mem_map.mp h
      have h1 : vt.name = u := by simpa using List.find?_some hf
      rw [← h1]
      apply List.mem_map_of_mem
      apply List.mem_filter.mpr
      refine ⟨List.mem_of_find?_eq_some hf, ?_⟩
      apply List.any_eq_true.mpr
      exact ⟨p, hp, by simp⟩

/-- Predecessor lists of a well-formed graph are duplicate-free. -/
lemma predList_nodup (g : DiGraph) (hwf : WFGraph g) (v : String) :
    (g.predList v).Nodup := by
  unfold DiGraph.predList
  have hsub : List.Sublist
      ((g.verts.filter (fun vt => vt.out.any (fun p => p.1 == v))).map Vert.name)
      (g.verts.map Vert.name) := (List.filter_sublist _).map _
  exact hwf.namesNodup.sublist hsub

/-- Predecessors are nodes. -/
lemma predList_closed (g : DiGraph) (v u : String) (hu : u ∈ g.predList v) :
    u ∈ g.names := by
  unfold DiGraph.predList at hu
  obtain ⟨vt, hvt, rfl⟩ := List.mem_map.mp hu
  exact List.mem_map_of_mem _ (List.mem_filter.mp hvt).1

/-- With duplicate-free targets, the per-vertex count of in-edges to v is
one or zero according to adjacency membership. -/
lemma countP_eq_ite_any (l : List (String × String)) (v : String)
    (hnd : (l.map Prod.fst).Nodup) :
    l.countP (fun p => p.1 == v) = if l.any (fun p => p.1 == v) then 1 else 0 := by
  induction l with
  | nil => simp
  | cons p rest ih =>
    rw [List.map_cons, List.nodup_cons] at hnd
    rw [List.countP_cons, List.any_cons]
    by_cases hp : p.1 = v
    · have hrest : rest.countP (fun q => q.1 == v) = 0 := by
        apply List.countP_eq_zero.mpr
        intro q hq
        simp only [beq_iff_eq]
        intro hqv
        exact hnd.1 (by rw [← hp, ← hqv] at *; exact List.mem_map_of_mem _ hq)
      simp [hp, hrest]
    · have hb : (p.1 == v) = false := by simpa using hp
      rw [hb, Bool.false_or, ih hnd.2]
      simp

/-- The indegree of a node is the number of its predecessors. -/
lemma indeg_eq_predList_length (g : DiGraph) (hwf : WFGraph g) (v : String) :
    g.indeg v = (g.predList v).length := by
  unfold DiGraph.indeg DiGraph.predList
  rw [List.length_map]
  have h : ∀ (l : List Vert), (∀ vt ∈ l, (vt.out.map Prod.fst).Nodup) →
      (l.map (fun vt => vt.out.countP (fun p => p.1 == v))).sum
        = (l.filter (fun vt => vt.out.any (fun p => p.1 == v))).length := by
    intro l
    induction l with
    | nil => simp
    | cons vt rest ih =>
      intro hl
      rw [List.map_cons, List.sum_cons, List.filter_cons,
        countP_eq_ite_any vt.out v (hl vt (List.mem_cons_self _ _))]
      by_cases ha : vt.out.any (fun p => p.1 == v) = true
      · rw [if_pos ha, if_pos ha, List.length_cons,
          ih (fun w hw => hl w (List.mem_cons_of_mem _ hw))]
        omega
      · rw [if_neg ha, if_neg (by simpa using ha),
          ih (fun w hw => hl w (List.mem_cons_of_mem _ hw))]
        omega
  exact h g.verts hwf.outNodup

/-- The number of predecessors of v outside the processed set. -/
def remaining (g : DiGraph) (done : List String) (v : String) : Nat :=
  ((g.predList v).filter (fun u => ¬ u ∈ done)).length

/-- Remaining indegree zero means every in-neighbor is processed. -/
lemma remaining_zero_iff (g : DiGraph) (hwf : WFGraph g) (done : List String) (v : String) :
    remaining g done v = 0 ↔ ∀ u, EdgeRel g u v → u ∈ done := by
  unfold remaining
  rw [List.length_eq_zero, List.filter_eq_nil_iff]
  constructor
  · intro h u hu
    have := h u ((mem_predList_iff g hwf u v).mpr hu)
    simpa using this
  · intro h u hu
    have := h u ((mem_predList_iff g hwf u v).mp hu)
    simpa using this

/-- Initially (nothing processed) the remaining indegree is the indegree. -/
lemma remaining_nil (g : DiGraph) (hwf : WFGraph g) (v : String) :
    remaining g [] v = g.indeg v := by
  unfold remaining
  rw [indeg_eq_predList_length g hwf v]
  congr 1
  apply List.filter_eq_self.mpr
  intro u _
  simp

/-- Processing a node that is no in-neighbor of v leaves v's remaining
indegree unchanged. -/
lemma remaining_append_not_pred (g : DiGraph) (done : List String) (n v : String)
    (hnp : ¬ n ∈ g.predList v) :
    remaining g (done ++ [n]) v = remaining g done v := by
  unfold remaining
  congr 1
  apply List.filter_congr
  intro u hu
  have hun : ¬ u = n := fun he => hnp (he ▸ hu)
  simp [List.mem_append, hun]

/-- On a duplicate-free list containing n, dropping n shortens the length by
exactly one. -/
lemma length_filter_ne_of_mem (l : List String) (hnd : l.Nodup) (n : String)
    (hmem : n ∈ l) :
    (l.filter (fun u => ¬ u = n)).length + 1 = l.length := by
  induction l with
  | nil => simp at hmem
  | cons x rest ih =>
    rw [List.nodup_cons] at hnd
    rw [List.filter_cons]
    by_cases hx : x = n
    · subst hx
      rw [if_neg (by simp)]
      have hrest : rest.filter (fun u => ¬ u = x) = rest := by
        apply List.filter_eq_self.mpr
        intro u hu
        simp only [decide_eq_true_eq]
        intro he
        exact hnd.1 (he ▸ hu)
      rw [hrest, List.length_cons]
    · rw [if_pos (by simpa using hx), List.length_cons, List.length_cons]
      have hnr : n ∈ rest := by
        rcases List.mem_cons.mp hmem with he | hr
        · exact absurd he.symm hx
        · exact hr
      rw [← ih hnd.2 hnr]

/-- Processing an unprocessed in-neighbor of v decrements v's remaining
indegree by exactly one. -/
lemma remaining_append_pred (g : DiGraph) (hwf : WFGraph g) (done : List String)
    (n v : String) (hp : n ∈ g.predList v) (hnD : ¬ n ∈ done) :
    remaining g (done ++ [n]) v + 1 = remaining g done v := by
  unfold remaining
  have h1 : (g.predList v).filter (fun u => ¬ u ∈ done ++ [n])
      = ((g.predList v).filter (fun u => ¬ u ∈ done)).filter (fun u => ¬ u = n) := by
    rw [List.filter_filter]
    apply List.filter_congr
    intro u hu
    simp [List.mem_append, not_or, Bool.and_comm]
  rw [h1]
  apply length_filter_ne_of_mem
  · exact (predList_nodup g hwf v).filter _
  · exact List.mem_filter.mpr ⟨hp, by simpa⟩

/-- Processing a node never increases a remaining indegree. -/
lemma remaining_append_le (g : DiGraph) (hwf : WFGraph g) (done : List String)
    (n v : String) (hnD : ¬ n ∈ done) :
    remaining g (done ++ [n]) v ≤ remaining g done v := by
  by_cases hp : n ∈ g.predList v
  · have := remaining_append_pred g hwf done n v hp hnD
    omega
  · rw [remaining_append_not_pred g done n v hp]

-- ## Indegree-map update lemmas (claim C8)

/-- Decrementing an absent child is a no-op without a zero report. -/
lemma decChild_none (m : List (String × Nat)) (c : String) (h : alookup m c = none) :
    decChild m c = (m, false) := by
  induction m with
  | nil => rfl
  | cons p rest ih =>
    rw [alookup_cons] at h
    by_cases hp : p.1 = c
    · rw [if_pos hp] at h
      exact absurd h (by simp)
    · rw [if_neg hp] at h
      cases p with
      | mk k1 n =>
        simp only [decChild, if_neg hp]
        rw [ih h]

/-- Decrementing a present child: the zero flag fires exactly when its count
was at most one; the keys stay duplicate-free and shrink; every lookup is
unchanged except the child's, which is decremented or removed. -/
lemma decChild_char (m : List (String × Nat)) (c : String) (k : Nat)
    (hnd : (m.map Prod.fst).Nodup) (h : alookup m c = some k) :
    (decChild m c).2 = decide (k ≤ 1)
    ∧ ((decChild m c).1.map Prod.fst).Nodup
    ∧ (∀ v, alookup (decChild m c).1 v =
        if v = c then (if k ≤ 1 then none else some (k - 1)) else alookup m v)
    ∧ ((decChild m c).1.map Prod.fst) ⊆ m.map Prod.fst := by
  induction m with
  | nil => exact absurd h (by simp [alookup])
  | cons p rest ih =>
    cases p with
    | mk k1 n =>
      rw [List.map_cons, List.nodup_cons] at hnd
      rw [alookup_cons] at h
      by_cases hp : k1 = c
      · rw [if_pos hp] at h
        have hn : n = k := by simpa using h
        subst hn
        subst hp
        by_cases hle : n ≤ 1
        · have hd : decChild ((k1, n) :: rest) k1 = (rest, true) := by
            unfold decChild
            rw [if_pos rfl, if_pos hle]
          rw [hd]
          refine ⟨by simp [hle], hnd.2, ?_, ?_⟩
          · intro v
            by_cases hv : v = k1
            · subst hv
              rw [if_pos rfl, if_pos hle]
              exact alookup_eq_none_of_not_mem rest v (by simpa using hnd.1)
            · rw [if_neg hv, alookup_cons, if_neg (fun he => hv he.symm)]
          · intro a ha
            exact List.mem_cons_of_mem _ ha
        · have hd : decChild ((k1, n) :: rest) k1 = ((k1, n - 1) :: rest, false) := by
            unfold decChild
            rw [if_pos rfl, if_neg hle]
          rw [hd]
          refine ⟨by simp [hle], ?_, ?_, ?_⟩
          · rw [List.map_cons]
            exact List.nodup_cons.mpr hnd
          · intro v
            by_cases hv : v = k1
            · subst hv
              rw [if_pos rfl, if_neg hle, alookup_cons, if_pos rfl]
            · rw [if_neg hv, alookup_cons, if_neg (fun he => hv he.symm),
                alookup_cons, if_neg (fun he => hv he.symm)]
          · intro a ha
            exact ha
      · rw [if_neg hp] at h
        obtain ⟨hflag, hkeys, hlook, hsub⟩ := ih hnd.2 h
        have hd : decChild ((k1, n) :: rest) c
            = ((k1, n) :: (decChild rest c).1, (decChild rest c).2) := by
          simp only [decChild, if_neg hp]
        rw [hd]
        refine ⟨hflag, ?_, ?_, ?_⟩
        · rw [List.map_cons]
          exact List.nodup_cons.mpr ⟨fun hmem => hnd.1 (hsub hmem), hkeys⟩
        · intro v
          by_cases hv : k1 = v
          · subst hv
            rw [alookup_cons, if_pos rfl, if_neg hp, alookup_cons, if_pos rfl]
          · rw [alookup_cons, if_neg hv, hlook v, alookup_cons, if_neg hv]
        · intro a ha
          rw [List.map_cons] at ha ⊢
          rcases List.mem_cons.mp ha with ha | ha
          · exact List.mem_cons.mpr (Or.inl ha)
          · exact List.mem_cons.mpr (Or.inr (hsub ha))

/-- The full effect of one generation node's child pass: the next generation
receives, in adjacency order, exactly the children whose count was at most
one; counts of other children decrement; untouched keys keep their
lookups. -/
lemma processChildren_spec (cs : List String) :
    ∀ (m : List (String × Nat)) (acc : List String),
      (m.map Prod.fst).Nodup → cs.Nodup →
      (processChildren cs m acc).2 = acc ++ cs.filter (fun c =>
          match alookup m c with
          | some k => decide (k ≤ 1)
          | none => false)
      ∧ ((processChildren cs m acc).1.map Prod.fst).Nodup
      ∧ (∀ v, alookup (processChildren cs m acc).1 v =
          if v ∈ cs then
            match alookup m v with
            | some k => if k ≤ 1 then none else some (k - 1)
            | none => none
          else alookup m v) := by
  induction cs with
  | nil =>
    intro m acc hnd _
    refine ⟨by simp [processChildren], hnd, ?_⟩
    intro v
    rw [if_neg (by simp)]
    rfl
  | cons c cs' ih =>
    intro m acc hnd hcs
    rw [List.nodup_cons] at hcs
    cases hc : alookup m c with
    | none =>
      have hd : processChildren (c :: cs') m acc = processChildren cs' m acc := by
        simp only [processChildren, decChild_none m c hc]
        rfl
      rw [hd]
      obtain ⟨h2, hk2, hl2⟩ := ih m acc hnd hcs.2
      refine ⟨?_, hk2, ?_⟩
      · rw [h2, List.filter_cons]
        rw [if_neg (by simp [hc])]
      · intro v
        rw [hl2 v]
        by_cases hvc : v = c
        · subst hvc
          rw [if_neg hcs.1, if_pos (List.mem_cons_self _ _), hc]
        · by_cases hv : v ∈ cs'
          · rw [if_pos hv, if_pos (List.mem_cons_of_mem _ hv)]
          · rw [if_neg hv, if_neg (by
              intro hmem
              rcases List.mem_cons.mp hmem with he | he
              · exact hvc he
              · exact hv he)]
    | some k =>
      obtain ⟨hflag, hkeys, hlook, _⟩ := decChild_char m c k hnd hc
      have hd : processChildren (c :: cs') m acc
          = processChildren cs' (decChild m c).1
              (if (decChild m c).2 then acc ++ [c] else acc) := by
        simp only [processChildren]
      rw [hd]
      obtain ⟨h2, hk2, hl2⟩ := ih (decChild m c).1
        (if (decChild m c).2 then acc ++ [c] else acc) hkeys hcs.2
      have hfiltereq : cs'.filter (fun x =>
          match alookup (decChild m c).1 x with
          | some k => decide (k ≤ 1)
          | none => false)
          = cs'.filter (fun x =>
          match alookup m x with
          | some k => decide (k ≤ 1)
          | none => false) := by
        apply List.filter_congr
        intro x hx
        rw [hlook x, if_neg (fun he => hcs.1 (by rw [← he]; exact hx))]
      refine ⟨?_, hk2, ?_⟩
      · rw [h2, hfiltereq, List.filter_cons, hc, hflag]
        by_cases hle : k ≤ 1
        · rw [if_pos (by simpa using hle), if_pos (by simpa using hle)]
          simp
        · rw [if_neg (by simpa using hle), if_neg (by simpa using hle)]
      · intro v
        rw [hl2 v]
        by_cases hvc : v = c
        · subst hvc
          rw [if_neg hcs.1, if_pos (List.mem_cons_self _ _), hlook v, if_pos rfl, hc]
        · by_cases hv : v ∈ cs'
          · rw [if_pos hv, if_pos (List.mem_cons_of_mem _ hv), hlook v, if_neg hvc]
          · rw [if_neg hv, if_neg (by
              intro hmem
              rcases List.mem_cons.mp hmem with he | he
              · exact hvc he
              · exact hv he), hlook v, if_neg hvc]

-- ## The sort invariant (claim C8)

/-- The invariant of the generations loop.  D is the processed prefix of the
output, pending the nodes whose remaining indegree already dropped to zero
but which are not yet processed, m the positive-remaining-indegree map. -/
structure KInv (g : DiGraph) (D : List String) (m : List (String × Nat))
    (pending : List String) : Prop where
  dnodup : D.Nodup
  pnodup : pending.Nodup
  dmem : ∀ v ∈ D, v ∈ g.names
  pmem : ∀ v ∈ pending, v ∈ g.names
  pd : ∀ v ∈ pending, ¬ v ∈ D
  pzero : ∀ v ∈ pending, remaining g D v = 0
  mkeys : (m.map Prod.fst).Nodup
  mchar : ∀ v, alookup m v =
    if v ∈ g.names ∧ ¬ v ∈ D ∧ ¬ v ∈ pending then some (remaining g D v) else none
  mpos : ∀ v ∈ g.names, ¬ v ∈ D → ¬ v ∈ pending → 0 < remaining g D v

/-- The updated map does not depend on the next-generation accumulator. -/
lemma processChildren_fst_acc_irrel (cs : List String) :
    ∀ (m : List (String × Nat)) (a b : List String),
      (processChildren cs m a).1 = (processChildren cs m b).1 := by
  induction cs with
  | nil =>
    intro m a b
    rfl
  | cons c cs' ih =>
    intro m a b
    simp only [processChildren]
    exact ih (decChild m c).1 _ _

/-- Processing one pending node preserves the invariant: the node moves into
the processed set and the children whose remaining indegree reached zero
join the pending set. -/
lemma kinv_step (g : DiGraph) (hwf : WFGraph g) (D : List String)
    (m : List (String × Nat)) (n : String) (rest : List String)
    (hinv : KInv g D m (n :: rest)) :
    KInv g (D ++ [n])
      (processChildren (g.succList n) m []).1
      (rest ++ (g.succList n).filter (fun c =>
          match alookup m c with
          | some k => decide (k ≤ 1)
          | none => false)) := by
  set cs := g.succList n with hcs_def
  set newz := cs.filter (fun c =>
      match alookup m c with
      | some k => decide (k ≤ 1)
      | none => false) with hnewz_def
  obtain ⟨hz, hk, hl⟩ := processChildren_spec cs m [] hinv.mkeys (succList_nodup g hwf n)
  have hn_names : n ∈ g.names := hinv.pmem n (List.mem_cons_self _ _)
  have hnD : ¬ n ∈ D := hinv.pd n (List.mem_cons_self _ _)
  have hpnodup := hinv.pnodup
  rw [List.nodup_cons] at hpnodup
  have hlookup_some : ∀ v k, alookup m v = some k →
      v ∈ g.names ∧ ¬ v ∈ D ∧ ¬ v ∈ (n :: rest) ∧ k = remaining g D v := by
    intro v k h
    have hm := hinv.mchar v
    rw [h] at hm
    by_cases hc : v ∈ g.names ∧ ¬ v ∈ D ∧ ¬ v ∈ (n :: rest)
    · rw [if_pos hc] at hm
      exact ⟨hc.1, hc.2.1, hc.2.2, by simpa using hm⟩
    · rw [if_neg hc] at hm
      exact absurd hm (by simp)
  have hlookup_n : alookup m n = none := by
    have hm := hinv.mchar n
    rw [if_neg (fun hc => hc.2.2 (List.mem_cons_self _ _))] at hm
    exact hm
  have hmem_cs_pred : ∀ x, x ∈ cs ↔ n ∈ g.predList x := by
    intro x
    rw [mem_predList_iff g hwf n x]
    exact Iff.rfl
  have hnewz_char : ∀ x, x ∈ newz →
      remaining g D x = 1 ∧ x ∈ cs ∧ x ∈ g.names ∧ ¬ x ∈ D ∧ ¬ x ∈ (n :: rest) := by
    intro x hx
    rw [hnewz_def] at hx
    obtain ⟨hxcs, hpred⟩ := List.mem_filter.mp hx
    cases hcase : alookup m x with
    | none =>
      rw [hcase] at hpred
      exact absurd hpred (by simp)
    | some k =>
      rw [hcase] at hpred
      have hle : k ≤ 1 := by simpa using hpred
      obtain ⟨h1, h2, h3, h4⟩ := hlookup_some x k hcase
      have hpos : 0 < remaining g D x := hinv.mpos x h1 h2 h3
      refine ⟨by omega, hxcs, h1, h2, h3⟩
  have hnot_newz_of_ge2 : ∀ x k, x ∈ cs → alookup m x = some k → ¬ k ≤ 1 → ¬ x ∈ newz := by
    intro x k hxcs hxk hk2 hmem
    rw [hnewz_def] at hmem
    have := (List.mem_filter.mp hmem).2
    rw [hxk] at this
    exact hk2 (by simpa using this)
  have hrem_step_not_cs : ∀ v, ¬ v ∈ cs → remaining g (D ++ [n]) v = remaining g D v := by
    intro v hv
    exact remaining_append_not_pred g D n v (fun hp => hv ((hmem_cs_pred v).mpr hp))
  have hrem_step_cs : ∀ v, v ∈ cs → remaining g (D ++ [n]) v + 1 = remaining g D v := by
    intro v hv
    exact remaining_append_pred g hwf D n v ((hmem_cs_pred v).mp hv) hnD
  refine ⟨?_, ?_, ?_, ?_, ?_, ?_, hk, ?_, ?_⟩
  · rw [List.nodup_append]
    refine ⟨hinv.dnodup, List.nodup_singleton n, ?_⟩
    intro a ha hb
    rw [List.mem_singleton] at hb
    subst hb
    exact hnD ha
  · rw [List.nodup_append]
    refine ⟨hpnodup.2, List.Nodup.filter _ (succList_nodup g hwf n), ?_⟩
    intro a ha hb
    exact (hnewz_char a hb).2.2.2.2 (List.mem_cons_of_mem _ ha)
  · intro v hv
    rcases List.mem_append.mp hv with hv | hv
    · exact hinv.dmem v hv
    · rw [List.mem_singleton] at hv
      subst hv
      exact hn_names
  · intro v hv
    rcases List.mem_append.mp hv with hv | hv
    · exact hinv.pmem v (List.mem_cons_of_mem _ hv)
    · exact (hnewz_char v hv).2.2.1
  · intro v hv hvD
    rcases List.mem_append.mp hvD with hvD | hvD
    · rcases List.mem_append.mp hv with hv | hv
      · exact hinv.pd v (List.mem_cons_of_mem _ hv) hvD
      · exact (hnewz_char v hv).2.2.2.1 hvD
    · rw [List.mem_singleton] at hvD
      subst hvD
      rcases List.mem_append.mp hv with hv | hv
      · exact hpnodup.1 hv
      · exact (hnewz_char v hv).2.2.2.2 (List.mem_cons_self _ _)
  · intro v hv
    rcases List.mem_append.mp hv with hv | hv
    · have h0 : remaining g D v = 0 := hinv.pzero v (List.mem_cons_of_mem _ hv)
      have := remaining_append_le g hwf D n v hnD
      omega
    · obtain ⟨h1, hxcs, _, _, _⟩ := hnewz_char v hv
      have := hrem_step_cs v hxcs
      omega
  · intro v
    rw [hl v]
    by_cases hvcs : v ∈ cs
    · rw [if_pos hvcs]
      cases hcase : alookup m v with
      | none =>
        have hm := hinv.mchar v
        rw [hcase] at hm
        have hcond : ¬ (v ∈ g.names ∧ ¬ v ∈ D ∧ ¬ v ∈ (n :: rest)) := by
          intro hc
          rw [if_pos hc] at hm
          exact Option.noConfusion hm
        have hcond2 : ¬ (v ∈ g.names ∧ ¬ v ∈ (D ++ [n]) ∧ ¬ v ∈ (rest ++ newz)) := by
          intro hc
          apply hcond
          refine ⟨hc.1, fun hvD => hc.2.1 (List.mem_append_left _ hvD), fun hvp => ?_⟩
          rcases List.mem_cons.mp hvp with he | he
          · exact hc.2.1 (by rw [he]; exact List.mem_append_right _ (List.mem_singleton_self n))
          · exact hc.2.2 (List.mem_append_left _ he)
        rw [if_neg hcond2]
      | some k =>
        obtain ⟨h1, h2, h3, h4⟩ := hlookup_some v k hcase
        have hvn : ¬ v = n := fun he => h3 (he ▸ List.mem_cons_self _ _)
        by_cases hle : k ≤ 1
        · show (if k ≤ 1 then (none : Option Nat) else some (k - 1)) = _
          rw [if_pos hle]
          have hvz : v ∈ newz := by
            rw [hnewz_def]
            apply List.mem_filter.mpr
            refine ⟨hvcs, ?_⟩
            rw [hcase]
            simpa using hle
          have hcond2 : ¬ (v ∈ g.names ∧ ¬ v ∈ (D ++ [n]) ∧ ¬ v ∈ (rest ++ newz)) := by
            intro hc
            exact hc.2.2 (List.mem_append_right _ hvz)
          rw [if_neg hcond2]
        · show (if k ≤ 1 then (none : Option Nat) else some (k - 1)) = _
          rw [if_neg hle]
          have hvz : ¬ v ∈ newz := hnot_newz_of_ge2 v k hvcs hcase hle
          have hcond2 : v ∈ g.names ∧ ¬ v ∈ (D ++ [n]) ∧ ¬ v ∈ (rest ++ newz) := by
            refine ⟨h1, ?_, ?_⟩
            · intro hvD
              rcases List.mem_append.mp hvD with hvD | hvD
              · exact h2 hvD
              · rw [List.mem_singleton] at hvD
                exact hvn hvD
            · intro hvp
              rcases List.mem_append.mp hvp with hvp | hvp
              · exact h3 (List.mem_cons_of_mem _ hvp)
              · exact hvz hvp
          rw [if_pos hcond2]
          have hstep := hrem_step_cs v hvcs
          rw [← h4] at hstep
          have hrem' : remaining g (D ++ [n]) v = k - 1 := by omega
          rw [hrem']
    · rw [if_neg hvcs]
      have hrem := hrem_step_not_cs v hvcs
      have hm := hinv.mchar v
      rw [hm]
      have hvnz : ¬ v ∈ newz := fun hv => hvcs (hnewz_char v hv).2.1
      by_cases hvn : v = n
      · subst hvn
        rw [if_neg (fun hc => hc.2.2 (List.mem_cons_self _ _)),
          if_neg (fun hc => hc.2.1 (List.mem_append_right _ (List.mem_singleton_self v)))]
      · by_cases hcond : v ∈ g.names ∧ ¬ v ∈ D ∧ ¬ v ∈ (n :: rest)
        · have hcond2 : v ∈ g.names ∧ ¬ v ∈ (D ++ [n]) ∧ ¬ v ∈ (rest ++ newz) := by
            refine ⟨hcond.1, ?_, ?_⟩
            · intro hvD
              rcases List.mem_append.mp hvD with h | h
              · exact hcond.2.1 h
              · rw [List.mem_singleton] at h
                exact hvn h
            · intro hvp
              rcases List.mem_append.mp hvp with h | h
              · exact hcond.2.2 (List.mem_cons_of_mem _ h)
              · exact hvnz h
          rw [if_pos hcond, if_pos hcond2, hrem]
        · have hcond2 : ¬ (v ∈ g.names ∧ ¬ v ∈ (D ++ [n]) ∧ ¬ v ∈ (rest ++ newz)) := by
            intro hc
            apply hcond
            refine ⟨hc.1, fun hD => hc.2.1 (List.mem_append_left _ hD), fun hp => ?_⟩
            rcases List.mem_cons.mp hp with he | he
            · exact hvn he
            · exact hc.2.2 (List.mem_append_left _ he)
          rw [if_neg hcond, if_neg hcond2]
  · intro v hv hvD' hvp'
    have hvD : ¬ v ∈ D := fun h => hvD' (List.mem_append_left _ h)
    have hvn : ¬ v = n := fun h =>
      hvD' (List.mem_append_right _ (by rw [h]; exact List.mem_singleton_self n))
    have hvrest : ¬ v ∈ rest := fun h => hvp' (List.mem_append_left _ h)
    have hvnz : ¬ v ∈ newz := fun h => hvp' (List.mem_append_right _ h)
    have hvpend : ¬ v ∈ (n :: rest) := by
      intro h
      rcases List.mem_cons.mp h with he | he
      · exact hvn he
      · exact hvrest he
    have hpos := hinv.mpos v hv hvD hvpend
    by_cases hvcs : v ∈ cs
    · have hm := hinv.mchar v
      rw [if_pos ⟨hv, hvD, hvpend⟩] at hm
      by_cases hle : remaining g D v ≤ 1
      · exfalso
        apply hvnz
        rw [hnewz_def]
        apply List.mem_filter.mpr
        refine ⟨hvcs, ?_⟩
        rw [hm]
        simpa using hle
      · have := hrem_step_cs v hvcs
        omega
    · rw [hrem_step_not_cs v hvcs]
      exact hpos

/-- Processing a whole generation preserves the invariant, moving the
generation into the processed set. -/
lemma processGen_spec (g : DiGraph) (hwf : WFGraph g) :
    ∀ (gen : List String) (m : List (String × Nat)) (acc D : List String),
      KInv g D m (gen ++ acc) →
      KInv g (D ++ gen) (processGen g gen m acc).1 (processGen g gen m acc).2 := by
  intro gen
  induction gen with
  | nil =>
    intro m acc D hinv
    rw [List.nil_append] at hinv
    rw [List.append_nil]
    exact hinv
  | cons n ns ih =>
    intro m acc D hinv
    rw [List.cons_append] at hinv
    have hstep := kinv_step g hwf D m n (ns ++ acc) hinv
    have hirrel := processChildren_fst_acc_irrel (g.succList n) m acc []
    obtain ⟨hz, _, _⟩ := processChildren_spec (g.succList n) m acc hinv.mkeys
      (succList_nodup g hwf n)
    have hkinv2 : KInv g (D ++ [n]) (processChildren (g.succList n) m acc).1
        (ns ++ (processChildren (g.succList n) m acc).2) := by
      rw [hirrel, hz, ← List.append_assoc]
      exact hstep
    have hres := ih (processChildren (g.succList n) m acc).1
      (processChildren (g.succList n) m acc).2 (D ++ [n]) hkinv2
    rw [List.append_assoc, List.singleton_append] at hres
    exact hres

-- ## The generations loop (claim C8)

/-- Two duplicate-free lists with the same members have the same length. -/
lemma nodup_length_eq (l1 l2 : List String) (h1 : l1.Nodup) (h2 : l2.Nodup)
    (h : ∀ x, x ∈ l1 ↔ x ∈ l2) : l1.length = l2.length :=
  le_antisymm
    (List.Subperm.length_le (List.subperm_of_subset h1 (fun x hx => (h x).mp hx)))
    (List.Subperm.length_le (List.subperm_of_subset h2 (fun x hx => (h x).mpr hx)))

/-- Processing a duplicate-free generation of unprocessed nodes shrinks the
unprocessed count by exactly the generation size. -/
lemma filter_not_append_length (g : DiGraph) (hwf : WFGraph g) (D zero : List String)
    (hnd : zero.Nodup) (hmem : ∀ v ∈ zero, v ∈ g.names) (hD : ∀ v ∈ zero, ¬ v ∈ D) :
    (g.names.filter (fun v => ¬ v ∈ (D ++ zero))).length + zero.length
      = (g.names.filter (fun v => ¬ v ∈ D)).length := by
  have hsplit : ∀ (l : List String),
      (l.filter (fun v => ¬ v ∈ zero)).length + (l.filter (fun v => v ∈ zero)).length
        = l.length := by
    intro l
    induction l with
    | nil => rfl
    | cons x xs ih =>
      rw [List.filter_cons, List.filter_cons]
      by_cases hx : x ∈ zero
      · rw [if_neg (by simpa using hx), if_pos (by simpa using hx)]
        simp only [List.length_cons]
        omega
      · rw [if_pos (by simpa using hx), if_neg (by simpa using hx)]
        simp only [List.length_cons]
        omega
  have h2 : (g.names.filter (fun v => ¬ v ∈ D)).filter (fun v => ¬ v ∈ zero)
      = g.names.filter (fun v => ¬ v ∈ (D ++ zero)) := by
    rw [List.filter_filter]
    apply List.filter_congr
    intro v _
    simp [List.mem_append, not_or, Bool.and_comm]
  have h3 : ((g.names.filter (fun v => ¬ v ∈ D)).filter (fun v => v ∈ zero)).length
      = zero.length := by
    apply nodup_length_eq
    · exact (hwf.namesNodup.filter _).filter _
    · exact hnd
    · intro x
      constructor
      · intro hx
        have hm := List.mem_filter.mp hx
        simpa using hm.2
      · intro hx
        refine List.mem_filter.mpr ⟨?_, by simpa using hx⟩
        exact List.mem_filter.mpr ⟨hmem x hx, by simpa using hD x hx⟩
  have h1 := hsplit (g.names.filter (fun v => ¬ v ∈ D))
  rw [h2, h3] at h1
  omega

/-- Splitting a concatenation at a distinguished element: the element falls
in the first part or strictly after it. -/
lemma append_eq_split :
    ∀ (xs p s ys : List String) (v : String),
      xs ++ ys = p ++ v :: s →
      (∃ t, xs = p ++ v :: t) ∨ (∃ q, p = xs ++ q ∧ ys = q ++ v :: s) := by
  intro xs
  induction xs with
  | nil =>
    intro p s ys v h
    right
    exact ⟨p, (List.nil_append p).symm, by simpa using h⟩
  | cons x xs' ih =>
    intro p s ys v h
    cases p with
    | nil =>
      rw [List.nil_append, List.cons_append] at h
      injection h with h1 h2
      left
      refine ⟨xs', ?_⟩
      rw [List.nil_append, h1]
    | cons ph pt =>
      rw [List.cons_append, List.cons_append] at h
      injection h with h1 h2
      rcases ih pt s ys v h2 with ⟨t, ht⟩ | ⟨q, hq1, hq2⟩
      · left
        refine ⟨t, ?_⟩
        rw [List.cons_append, h1, ht]
      · right
        refine ⟨q, ?_, hq2⟩
        rw [List.cons_append, h1, hq1]

/-- Every element of the suffix has all its in-neighbors strictly earlier in
the full order D ++ out. -/
def GoodSuffix (g : DiGraph) (D out : List String) : Prop :=
  ∀ p v s, out = p ++ v :: s → ∀ u, EdgeRel g u v → u ∈ D ++ p

/-- The generations loop, run with enough fuel from an invariant state,
terminates in an invariant state with empty pending set, and appends to the
processed set an order in which every node follows all its in-neighbors. -/
lemma genLoop_spec (g : DiGraph) (hwf : WFGraph g) :
    ∀ (fuel : Nat) (m : List (String × Nat)) (zero D : List String),
      KInv g D m zero →
      (g.names.filter (fun v => ¬ v ∈ D)).length ≤ fuel →
      KInv g (D ++ (genLoop g fuel m zero).1) (genLoop g fuel m zero).2 []
        ∧ GoodSuffix g D (genLoop g fuel m zero).1 := by
  intro fuel
  induction fuel with
  | zero =>
    intro m zero D hinv hle
    cases zero with
    | nil =>
      refine ⟨?_, ?_⟩
      · show KInv g (D ++ []) m []
        rw [List.append_nil]
        exact hinv
      · show GoodSuffix g D []
        intro p v s h u hu
        exfalso
        cases p <;> simp at h
    | cons z zs =>
      exfalso
      have hsub : ∀ x ∈ (z :: zs), x ∈ g.names.filter (fun v => ¬ v ∈ D) := by
        intro x hx
        exact List.mem_filter.mpr ⟨hinv.pmem x hx, by simpa using hinv.pd x hx⟩
      have hlen := List.Subperm.length_le (List.subperm_of_subset hinv.pnodup hsub)
      rw [List.length_cons] at hlen
      omega
  | succ fuel ih =>
    intro m zero D hinv hle
    cases zero with
    | nil =>
      refine ⟨?_, ?_⟩
      · show KInv g (D ++ []) m []
        rw [List.append_nil]
        exact hinv
      · show GoodSuffix g D []
        intro p v s h u hu
        exfalso
        cases p <;> simp at h
    | cons z zs =>
      have hinv0 : KInv g D m ((z :: zs) ++ []) := by
        rw [List.append_nil]
        exact hinv
      have hgen := processGen_spec g hwf (z :: zs) m [] D hinv0
      have key := filter_not_append_length g hwf D (z :: zs) hinv.pnodup hinv.pmem hinv.pd
      have hle2 : (g.names.filter (fun v => ¬ v ∈ (D ++ z :: zs))).length ≤ fuel := by
        rw [List.length_cons] at key
        omega
      have hrec := ih (processGen g (z :: zs) m []).1 (processGen g (z :: zs) m []).2
        (D ++ (z :: zs)) hgen hle2
      refine ⟨?_, ?_⟩
      · show KInv g (D ++ ((z :: zs) ++ (genLoop g fuel (processGen g (z :: zs) m []).1
            (processGen g (z :: zs) m []).2).1))
          (genLoop g fuel (processGen g (z :: zs) m []).1
            (processGen g (z :: zs) m []).2).2 []
        rw [← List.append_assoc]
        exact hrec.1
      · show GoodSuffix g D ((z :: zs) ++ (genLoop g fuel (processGen g (z :: zs) m []).1
            (processGen g (z :: zs) m []).2).1)
        intro p v s h u hu
        rcases append_eq_split (z :: zs) p s _ v h with ⟨t, ht⟩ | ⟨q, hq1, hq2⟩
        · have hv : v ∈ (z :: zs) := by
            rw [ht]
            exact List.mem_append_right _ (List.mem_cons_self _ _)
          have hD := (remaining_zero_iff g hwf D v).mp (hinv.pzero v hv) u hu
          exact List.mem_append_left _ hD
        · have hmem := hrec.2 q v s hq2 u hu
          rw [hq1, ← List.append_assoc]
          exact hmem

-- ## The initial state of the runner (claim C8)

/-- Looking up in a name-keyed map built from vertices. -/
lemma alookup_vertmap (f : String → Nat) :
    ∀ (L : List Vert) (v : String),
      alookup (L.map (fun vt => (vt.name, f vt.name))) v
        = if v ∈ L.map (fun vt => vt.name) then some (f v) else none := by
  intro L
  induction L with
  | nil =>
    intro v
    rw [List.map_nil, List.map_nil, if_neg (List.not_mem_nil v)]
    rfl
  | cons vt L ih =>
    intro v
    rw [List.map_cons, List.map_cons, alookup_cons]
    by_cases h : vt.name = v
    · rw [if_pos h, h, if_pos (List.mem_cons_self _ _)]
    · rw [if_neg h, ih v]
      by_cases hm : v ∈ L.map (fun vt => vt.name)
      · rw [if_pos hm, if_pos (List.mem_cons_of_mem _ hm)]
      · rw [if_neg hm, if_neg ?_]
        intro hc
        rcases List.mem_cons.mp hc with he | he
        · exact h he.symm
        · exact hm he

/-- Membership in the initial zero-indegree generation. -/
lemma mem_zeroList_iff (g : DiGraph) (v : String) :
    v ∈ (g.verts.filter (fun vt => g.indeg vt.name == 0)).map (·.name) ↔
      v ∈ g.names ∧ g.indeg v = 0 := by
  constructor
  · intro h
    rcases List.mem_map.mp h with ⟨vt, hvt, hname⟩
    have hf := List.mem_filter.mp hvt
    constructor
    · rw [← hname]
      exact List.mem_map_of_mem _ hf.1
    · rw [← hname]
      simpa using hf.2
  · rintro ⟨hv, hz⟩
    have hv2 : v ∈ g.verts.map (·.name) := hv
    rcases List.mem_map.mp hv2 with ⟨vt, hvt, hname⟩
    apply List.mem_map.mpr
    refine ⟨vt, List.mem_filter.mpr ⟨hvt, ?_⟩, hname⟩
    rw [hname]
    simpa using hz
/-- Membership in the key list of the initial positive-indegree map. -/
lemma mem_posList_iff (g : DiGraph) (v : String) :
    v ∈ (g.verts.filter (fun vt => ¬ g.indeg vt.name == 0)).map (fun vt => vt.name) ↔
      v ∈ g.names ∧ ¬ g.indeg v = 0 := by
  constructor
  · intro h
    rcases List.mem_map.mp h with ⟨vt, hvt, hname⟩
    have hf := List.mem_filter.mp hvt
    constructor
    · rw [← hname]
      exact List.mem_map_of_mem _ hf.1
    · rw [← hname]
      simpa using hf.2
  · rintro ⟨hv, hz⟩
    have hv2 : v ∈ g.verts.map (·.name) := hv
    rcases List.mem_map.mp hv2 with ⟨vt, hvt, hname⟩
    apply List.mem_map.mpr
    refine ⟨vt, List.mem_filter.mpr ⟨hvt, ?_⟩, hname⟩
    rw [hname]
    simpa using hz

/-- The state the runner starts from satisfies the invariant. -/
lemma kahnRun_init (g : DiGraph) (hwf : WFGraph g) :
    KInv g []
      ((g.verts.filter (fun vt => ¬ g.indeg vt.name == 0)).map
        (fun vt => (vt.name, g.indeg vt.name)))
      ((g.verts.filter (fun vt => g.indeg vt.name == 0)).map (·.name)) := by
  refine ⟨List.nodup_nil, ?_, ?_, ?_, ?_, ?_, ?_, ?_, ?_⟩
  · have hsub : List.Sublist
        ((g.verts.filter (fun vt => g.indeg vt.name == 0)).map (·.name)) g.names :=
      List.Sublist.map _ (List.filter_sublist _)
    exact List.Nodup.sublist hsub hwf.namesNodup
  · intro v hv
    exact absurd hv (List.not_mem_nil v)
  · intro v hv
    exact ((mem_zeroList_iff g v).mp hv).1
  · intro v hv
    exact List.not_mem_nil v
  · intro v hv
    rw [remaining_nil g hwf v]
    exact ((mem_zeroList_iff g v).mp hv).2
  · rw [List.map_map]
    have he : (Prod.fst ∘ fun vt : Vert => (vt.name, g.indeg vt.name))
        = fun vt : Vert => vt.name := rfl
    rw [he]
    have hsub : List.Sublist
        ((g.verts.filter (fun vt => ¬ g.indeg vt.name == 0)).map (fun vt => vt.name))
        g.names :=
      List.Sublist.map _ (List.filter_sublist _)
    exact List.Nodup.sublist hsub hwf.namesNodup
  · intro v
    rw [alookup_vertmap g.indeg _ v]
    by_cases hv : v ∈ g.names
    · by_cases hz : g.indeg v = 0
      · have hA : ¬ v ∈ (g.verts.filter
            (fun vt => ¬ g.indeg vt.name == 0)).map (fun vt => vt.name) := by
          intro hc
          exact ((mem_posList_iff g v).mp hc).2 hz
        have hB : ¬ (v ∈ g.names ∧ ¬ v ∈ ([] : List String) ∧
            ¬ v ∈ (g.verts.filter (fun vt => g.indeg vt.name == 0)).map (·.name)) := by
          intro hc
          exact hc.2.2 ((mem_zeroList_iff g v).mpr ⟨hv, hz⟩)
        rw [if_neg hA, if_neg hB]
      · have hA : v ∈ (g.verts.filter
            (fun vt => ¬ g.indeg vt.name == 0)).map (fun vt => vt.name) :=
          (mem_posList_iff g v).mpr ⟨hv, hz⟩
        have hB : v ∈ g.names ∧ ¬ v ∈ ([] : List String) ∧
            ¬ v ∈ (g.verts.filter (fun vt => g.indeg vt.name == 0)).map (·.name) := by
          refine ⟨hv, List.not_mem_nil v, ?_⟩
          intro hvz
          exact hz ((mem_zeroList_iff g v).mp hvz).2
        rw [if_pos hA, if_pos hB, remaining_nil g hwf v]
    · have hA : ¬ v ∈ (g.verts.filter
          (fun vt => ¬ g.indeg vt.name == 0)).map (fun vt => vt.name) := by
        intro hc
        exact hv ((mem_posList_iff g v).mp hc).1
      have hB : ¬ (v ∈ g.names ∧ ¬ v ∈ ([] : List String) ∧
          ¬ v ∈ (g.verts.filter (fun vt => g.indeg vt.name == 0)).map (·.name)) := by
        intro hc
        exact hv hc.1
      rw [if_neg hA, if_neg hB]
  · intro v hv hvD hvp
    rw [remaining_nil g hwf v]
    have hz : ¬ g.indeg v = 0 := fun hz => hvp ((mem_zeroList_iff g v).mpr ⟨hv, hz⟩)
    omega

/-- The whole run lands in an invariant state with empty pending set and an
order in which every node follows its in-neighbors. -/
lemma kahnRun_spec (g : DiGraph) (hwf : WFGraph g) :
    KInv g (kahnRun g).1 (kahnRun g).2 [] ∧ GoodSuffix g [] (kahnRun g).1 := by
  have hle : (g.names.filter (fun v => ¬ v ∈ ([] : List String))).length
      ≤ g.verts.length + 1 := by
    have h1 := List.length_filter_le (fun v => ¬ v ∈ ([] : List String)) g.names
    have h2 : g.names.length = g.verts.length := List.length_map _ _
    omega
  have h := genLoop_spec g hwf (g.verts.length + 1)
    ((g.verts.filter (fun vt => ¬ g.indeg vt.name == 0)).map
      (fun vt => (vt.name, g.indeg vt.name)))
    ((g.verts.filter (fun vt => g.indeg vt.name == 0)).map (·.name))
    [] (kahnRun_init g hwf) hle
  rw [List.nil_append] at h
  exact h

/-- The runner consumes the map exactly when it outputs every node. -/
lemma kahnRun_empty_iff (g : DiGraph) (hwf : WFGraph g) :
    (kahnRun g).2 = [] ↔ ∀ v ∈ g.names, v ∈ (kahnRun g).1 := by
  obtain ⟨hinv, _⟩ := kahnRun_spec g hwf
  constructor
  · intro hM v hv
    by_contra hvo
    have hm := hinv.mchar v
    rw [hM] at hm
    rw [if_pos ⟨hv, hvo, List.not_mem_nil v⟩] at hm
    exact Option.noConfusion hm
  · intro hall
    cases hM : (kahnRun g).2 with
    | nil => rfl
    | cons kv rest =>
      exfalso
      obtain ⟨k, n⟩ := kv
      have hm := hinv.mchar k
      rw [hM, alookup_cons, if_pos rfl] at hm
      by_cases hc : k ∈ g.names ∧ ¬ k ∈ (kahnRun g).1 ∧ ¬ k ∈ ([] : List String)
      · exact hc.2.1 (hall k hc.1)
      · rw [if_neg hc] at hm
        exact Option.noConfusion hm

-- ## Cycles versus topological orders (claim C8)

/-- A directed cycle: a nonempty edge path from some node back to itself. -/
def HasCycle (g : DiGraph) : Prop :=
  ∃ u, Relation.TransGen (EdgeRel g) u u

/-- A topological order of a graph: a duplicate-free enumeration of exactly
the nodes in which every node follows all its in-neighbors. -/
def IsTopoOrderOf (g : DiGraph) (ord : List String) : Prop :=
  ord.Nodup ∧ (∀ v, v ∈ ord ↔ v ∈ g.names) ∧
    ∀ p v s, ord = p ++ v :: s → ∀ u, EdgeRel g u v → u ∈ p

/-- When the runner consumes everything, its output is a topological
order. -/
lemma kahnRun_complete_topo (g : DiGraph) (hwf : WFGraph g)
    (h : (kahnRun g).2 = []) : IsTopoOrderOf g (kahnRun g).1 := by
  obtain ⟨hinv, hgood⟩ := kahnRun_spec g hwf
  refine ⟨hinv.dnodup, ?_, ?_⟩
  · intro v
    exact ⟨fun hv => hinv.dmem v hv, fun hv => (kahnRun_empty_iff g hwf).mp h v hv⟩
  · intro p v s hps u hu
    have hm := hgood p v s hps u hu
    rwa [List.nil_append] at hm

/-- In a topological order, everything reachable backwards from a node sits
strictly before it. -/
lemma topo_before (g : DiGraph) (ord : List String) (htopo : IsTopoOrderOf g ord) :
    ∀ u w, Relation.TransGen (EdgeRel g) u w →
      ∀ p s, ord = p ++ w :: s → u ∈ p := by
  intro u w h
  induction h with
  | single h =>
    intro p s hps
    exact htopo.2.2 p _ s hps u h
  | tail h1 h2 ih =>
    rename_i b c
    intro p s hps
    have hb := htopo.2.2 p _ s hps _ h2
    rcases List.append_of_mem hb with ⟨p1, p2, hp⟩
    have hps2 : ord = p1 ++ b :: (p2 ++ c :: s) := by
      rw [hps, hp]
      simp [List.append_assoc]
    have hu := ih p1 (p2 ++ c :: s) hps2
    rw [hp]
    exact List.mem_append_left _ hu

/-- Every nonempty path starts with an edge out of its source. -/
lemma transgen_first_edge (g : DiGraph) (u w : String)
    (h : Relation.TransGen (EdgeRel g) u w) : ∃ b, EdgeRel g u b := by
  induction h with
  | single h => exact ⟨_, h⟩
  | tail h1 h2 ih => exact ih

/-- A graph admitting a topological order has no cycle. -/
lemma cycle_not_topo (g : DiGraph) (ord : List String) (htopo : IsTopoOrderOf g ord)
    (hcyc : HasCycle g) : False := by
  obtain ⟨u, hu⟩ := hcyc
  obtain ⟨b, hb⟩ := transgen_first_edge g u u hu
  have humem : u ∈ g.names := edge_src_mem g u b hb
  have hord : u ∈ ord := (htopo.2.1 u).mpr humem
  rcases List.append_of_mem hord with ⟨p, s, hp⟩
  have hup := topo_before g ord htopo u u hu p s hp
  have hnd := htopo.1
  rw [hp, List.nodup_append] at hnd
  exact hnd.2.2 hup (List.mem_cons_self u s)

/-- Any edge makes the edge list nonempty. -/
lemma edgeCount_ne_zero_of_edge (g : DiGraph) (u v : String) (h : EdgeRel g u v) :
    g.edgeCount ≠ 0 := by
  unfold EdgeRel DiGraph.succList at h
  rcases List.mem_map.mp h with ⟨p, hp, hpv⟩
  unfold DiGraph.succPairs at hp
  cases hfind : g.verts.find? (fun vt => vt.name == u) with
  | none =>
    rw [hfind] at hp
    simp at hp
  | some vt =>
    rw [hfind] at hp
    have hvt : vt ∈ g.verts := List.mem_of_find?_eq_some hfind
    have hmem : (vt.name, p.1, p.2) ∈ g.edgeList := by
      unfold DiGraph.edgeList
      apply List.mem_flatMap.mpr
      exact ⟨vt, hvt, List.mem_map.mpr ⟨p, hp, rfl⟩⟩
    unfold DiGraph.edgeCount
    intro hlen
    rw [List.length_eq_zero] at hlen
    rw [hlen] at hmem
    exact List.not_mem_nil _ hmem

/-- A finite nonempty set of nodes in which every node has an in-neighbor
inside the set contains a cycle. -/
lemma exists_cycle_of_all_have_pred (g : DiGraph) (S : List String) (hne : S ≠ [])
    (hstep : ∀ v ∈ S, ∃ u ∈ S, EdgeRel g u v) : HasCycle g := by
  classical
  obtain ⟨a0, ha0⟩ := List.exists_mem_of_ne_nil S hne
  let f : {v // v ∈ S} → {v // v ∈ S} := fun x =>
    ⟨(hstep x.1 x.2).choose, (hstep x.1 x.2).choose_spec.1⟩
  have hf : ∀ x : {v // v ∈ S}, EdgeRel g (f x).1 x.1 := fun x =>
    (hstep x.1 x.2).choose_spec.2
  have hedge : ∀ n, EdgeRel g (f^[n + 1] ⟨a0, ha0⟩).1 (f^[n] ⟨a0, ha0⟩).1 := by
    intro n
    rw [Function.iterate_succ_apply']
    exact hf _
  have htrans : ∀ d n, Relation.TransGen (EdgeRel g)
      (f^[n + d + 1] ⟨a0, ha0⟩).1 (f^[n] ⟨a0, ha0⟩).1 := by
    intro d
    induction d with
    | zero =>
      intro n
      exact Relation.TransGen.single (hedge n)
    | succ d ih =>
      intro n
      exact Relation.TransGen.head (hedge (n + d + 1)) (ih n)
  have hmaps : ∀ i : Fin (S.length + 1), (f^[i.1] ⟨a0, ha0⟩).1 ∈ S.toFinset := by
    intro i
    exact List.mem_toFinset.mpr (f^[i.1] ⟨a0, ha0⟩).2
  have hcard : S.toFinset.card < (Finset.univ : Finset (Fin (S.length + 1))).card := by
    rw [Finset.card_univ, Fintype.card_fin]
    exact Nat.lt_succ_of_le (List.toFinset_card_le S)
  obtain ⟨i, _, j, _, hij, heq⟩ :=
    Finset.exists_ne_map_eq_of_card_lt_of_maps_to hcard (fun i _ => hmaps i)
  have main : ∀ (a b : Fin (S.length + 1)), a.1 < b.1 →
      (f^[a.1] ⟨a0, ha0⟩).1 = (f^[b.1] ⟨a0, ha0⟩).1 → HasCycle g := by
    intro a b hab he
    obtain ⟨d, hd⟩ : ∃ d, b.1 = a.1 + d + 1 := ⟨b.1 - a.1 - 1, by omega⟩
    refine ⟨(f^[a.1] ⟨a0, ha0⟩).1, ?_⟩
    have ht := htrans d a.1
    rw [← hd] at ht
    rw [← he] at ht
    exact ht
  rcases Nat.lt_trichotomy i.1 j.1 with h | h | h
  · exact main i j h heq
  · exact absurd (Fin.ext h) hij
  · exact main j i h heq.symm

/-- When the runner leaves a nonempty map, the graph has a cycle. -/
lemma kahnRun_stuck_cycle (g : DiGraph) (hwf : WFGraph g)
    (h : (kahnRun g).2 ≠ []) : HasCycle g := by
  obtain ⟨hinv, _⟩ := kahnRun_spec g hwf
  have hSne : g.names.filter (fun v => ¬ v ∈ (kahnRun g).1) ≠ [] := by
    cases hM : (kahnRun g).2 with
    | nil => exact absurd hM h
    | cons kv rest =>
      obtain ⟨k, n⟩ := kv
      have hm := hinv.mchar k
      rw [hM, alookup_cons, if_pos rfl] at hm
      by_cases hc : k ∈ g.names ∧ ¬ k ∈ (kahnRun g).1 ∧ ¬ k ∈ ([] : List String)
      · apply List.ne_nil_of_mem (a := k)
        exact List.mem_filter.mpr ⟨hc.1, by simpa using hc.2.1⟩
      · rw [if_neg hc] at hm
        exact absurd hm (by simp)
  have hstep : ∀ v ∈ g.names.filter (fun v => ¬ v ∈ (kahnRun g).1),
      ∃ u ∈ g.names.filter (fun v => ¬ v ∈ (kahnRun g).1), EdgeRel g u v := by
    intro v hv
    have hvS := List.mem_filter.mp hv
    have hvn : v ∈ g.names := hvS.1
    have hvo : ¬ v ∈ (kahnRun g).1 := by simpa using hvS.2
    have hpos := hinv.mpos v hvn hvo (List.not_mem_nil v)
    unfold remaining at hpos
    have hne2 : (g.predList v).filter (fun u => ¬ u ∈ (kahnRun g).1) ≠ [] := by
      intro hnil
      rw [hnil] at hpos
      simp at hpos
    obtain ⟨u, hu⟩ := List.exists_mem_of_ne_nil _ hne2
    have hu2 := List.mem_filter.mp hu
    refine ⟨u, ?_, (mem_predList_iff g hwf u v).mp hu2.1⟩
    exact List.mem_filter.mpr ⟨predList_closed g v u hu2.1, hu2.2⟩
  exact exists_cycle_of_all_have_pred g _ hSne hstep

/-- A cycle makes the library acyclicity check fail. -/
lemma isDAG_false_of_cycle (g : DiGraph) (hwf : WFGraph g) (hcyc : HasCycle g) :
    isDirectedAcyclicGraph g = false := by
  unfold isDirectedAcyclicGraph
  cases hM : (kahnRun g).2 with
  | nil =>
    exfalso
    exact cycle_not_topo g (kahnRun g).1 (kahnRun_complete_topo g hwf hM) hcyc
  | cons a rest => rfl

/-- Absence of cycles makes the library acyclicity check succeed. -/
lemma isDAG_true_of_no_cycle (g : DiGraph) (hwf : WFGraph g) (hnc : ¬ HasCycle g) :
    isDirectedAcyclicGraph g = true := by
  unfold isDirectedAcyclicGraph
  cases hM : (kahnRun g).2 with
  | nil => rfl
  | cons a rest =>
    exfalso
    apply hnc
    apply kahnRun_stuck_cycle g hwf
    rw [hM]
    intro hx
    exact List.noConfusion hx

/-- A cyclic subgraph makes the DAG check report failure. -/
lemma isValidDag_false_of_cycle (g : DiGraph) (allowed : List String)
    (hcyc : HasCycle (genSubgraph g allowed)) :
    isValidDag g allowed = false := by
  unfold isValidDag
  have hne : (genSubgraph g allowed).edgeCount ≠ 0 := by
    obtain ⟨u, hu⟩ := hcyc
    obtain ⟨b, hb⟩ := transgen_first_edge _ u u hu
    exact edgeCount_ne_zero_of_edge _ u b hb
  rw [if_neg (by simpa using hne)]
  exact isDAG_false_of_cycle _ (wf_genSubgraph g allowed) hcyc

/-- An acyclic subgraph passes the DAG check. -/
lemma isValidDag_true_of_no_cycle (g : DiGraph) (allowed : List String)
    (hnc : ¬ HasCycle (genSubgraph g allowed)) :
    isValidDag g allowed = true := by
  unfold isValidDag
  by_cases he : ((genSubgraph g allowed).edgeCount == 0) = true
  · rw [if_pos he]
  · rw [if_neg he]
    exact isDAG_true_of_no_cycle _ (wf_genSubgraph g allowed) hnc

-- ## Bind reductions and construction-shape lemmas (claims C5, C9, C10)

/-- Bind on a success reduces to the continuation. -/
lemma ebind_ok {α β : Type} (a : α) (f : α → Except DslError β) :
    (Except.ok a >>= f) = f a := rfl

/-- Bind on a failure short-circuits. -/
lemma ebind_error {α β : Type} (e : DslError) (f : α → Except DslError β) :
    ((Except.error e : Except DslError α) >>= f) = Except.error e := rfl

/-- The two input indices of the constructor: the key index holds the last
variable of each key, the lazy index the same restricted to sigil keys. -/
lemma buildInputDicts_lookup (inputs : List Variable) (k : String) :
    alookup (buildInputDicts inputs).1 k = lastVarWith inputs k
    ∧ alookup (buildInputDicts inputs).2 k
        = (if strStartsWith k "$" = true then lastVarWith inputs k else none) := by
  have h := buildInputDicts_lookup_aux inputs [] [] k
  constructor
  · unfold buildInputDicts
    rw [h.1]
    cases hl : lastVarWith inputs k with
    | some w => rfl
    | none => rfl
  · unfold buildInputDicts
    rw [h.2]
    by_cases hk : strStartsWith k "$" = true
    · rw [if_pos hk, if_pos hk]
      cases hl : lastVarWith inputs k with
      | some w => rfl
      | none => rfl
    · rw [if_neg hk, if_neg hk]
      rfl

/-- A successful construction stores the two indices the inputs loop
built. -/
lemma buildConfig_ok_dicts (cfg : ConfigData) (bc : BuiltConfig)
    (hb : buildConfig cfg = Except.ok bc) :
    bc.inputsDict = (buildInputDicts cfg.inputs).1
    ∧ bc.lazyVars = (buildInputDicts cfg.inputs).2 := by
  unfold buildConfig at hb
  by_cases hv : ¬ cfg.version ∈ SUPPORTED_VERSION
  · rw [if_pos hv] at hb
    exact absurd hb (by simp)
  · rw [if_neg hv] at hb
    cases hs : firstDup (serviceNames cfg) with
    | some n =>
      simp only [hs] at hb
      exact Except.noConfusion hb
    | none =>
      simp only [hs] at hb
      cases ht : firstDup (testNames cfg) with
      | some n =>
        simp only [ht] at hb
        exact Except.noConfusion hb
      | none =>
        simp only [ht] at hb
        cases hve : verifyE cfg with
        | error e =>
          rw [hve, ebind_error] at hb
          exact Except.noConfusion hb
        | ok u =>
          rw [hve, ebind_ok] at hb
          cases hg : buildFullGraph cfg with
          | error e =>
            rw [hg, ebind_error] at hb
            exact Except.noConfusion hb
          | ok g =>
            rw [hg, ebind_ok] at hb
            injection hb with hbc
            subst hbc
            exact ⟨rfl, rfl⟩

/-- Whether construction succeeds is decided by the version, the service and
test name scans, the semantic check and the graph build alone — no condition
involves the inputs list. -/
lemma buildConfig_isOk_eq (cfg : ConfigData) :
    exceptIsOk (buildConfig cfg)
      = (decide (cfg.version ∈ SUPPORTED_VERSION)
         && (firstDup (serviceNames cfg)).isNone
         && (firstDup (testNames cfg)).isNone
         && exceptIsOk (verifyE cfg)
         && exceptIsOk (buildFullGraph cfg)) := by
  unfold buildConfig
  by_cases hv : ¬ cfg.version ∈ SUPPORTED_VERSION
  · rw [if_pos hv, decide_eq_false hv]
    rfl
  · rw [if_neg hv]
    rw [not_not] at hv
    rw [decide_eq_true hv]
    cases hs : firstDup (serviceNames cfg) with
    | some n =>
      simp only [hs]
      rfl
    | none =>
      simp only [hs]
      cases ht : firstDup (testNames cfg) with
      | some n =>
        simp only [ht]
        rfl
      | none =>
        simp only [ht]
        cases hve : verifyE cfg with
        | error e =>
          rw [ebind_error]
          rfl
        | ok u =>
          rw [ebind_ok]
          cases hg : buildFullGraph cfg with
          | error e =>
            rw [ebind_error]
            rfl
          | ok g =>
            rw [ebind_ok]
            rfl

/-- The docker rendering as a space-joined token list (nonempty argv). -/
lemma docker_getCommand_tokens (d : DockerRunner) (c0 : String) (cs : List String)
    (hc : d.cmd = c0 :: cs) :
    d.getCommand = pyJoin " " (["docker", "exec", d.cntr_name] ++ d.cmd) := by
  unfold DockerRunner.getCommand
  rw [hc]
  show "docker exec " ++ d.cntr_name ++ " " ++ pyJoin " " (c0 :: cs)
    = "docker" ++ " " ++ ("exec" ++ " " ++ (d.cntr_name ++ " " ++ pyJoin " " (c0 :: cs)))
  simp only [← String.append_assoc]
  rfl

-- ## Duplicate-key inputs scenario (claim C10)

/-- First variable under the duplicated key. -/
def varDupA : Variable := { key := "$k", value := some "1" }

/-- Second (later, winning) variable under the duplicated key. -/
def varDupB : Variable := { key := "$k", value := some "2" }

/-- A configuration whose inputs carry the same key twice. -/
def cfgDupInputs : ConfigData :=
  { version := "0.1.0", name := "dup", desc := "",
    inputs := [varDupA, varDupB], services := [], tests := [] }

/-- The built duplicate-key configuration. -/
def bcDupInputs : BuiltConfig :=
  match buildConfig cfgDupInputs with
  | .ok b => b
  | .error _ => default

example : buildConfig cfgDupInputs = .ok bcDupInputs := by rfl

example : alookup bcDupInputs.inputsDict "$k" = some varDupB := by rfl

example : alookup bcDupInputs.lazyVars "$k" = some varDupB := by rfl

example : lastVarWith cfgDupInputs.inputs "$k" = some varDupB := by rfl

-- ## The claims

/-- C1: Refuted as stated — generate_execution_plan returns the
deploy/execute dictionary, not a single interleaved sequence.  On the
claim's own linear-chain scenario the code yields deploy [a, b, c] and
execute [t1, t2], while the specified interleaved chain walk (which the
repository's unit tests also expect) yields [a, b, t1, c, t2]; no reading
of the dict as a list equals the claimed plan. -/
theorem exec_plan_is_dict_not_interleaved :
    buildConfig cfgScenA = Except.ok bcScenA
    ∧ generateExecutionPlan cfgScenA bcScenA.graph
        = Except.ok ⟨["a", "b", "c"], ["t1", "t2"]⟩
    ∧ specChainWalk bcScenA.graph defaultAllowedEdgeTypes
        = ["a", "b", "t1", "c", "t2"]
    ∧ Plan.deploy ⟨["a", "b", "c"], ["t1", "t2"]⟩
        ++ Plan.execute ⟨["a", "b", "c"], ["t1", "t2"]⟩
        ≠ specChainWalk bcScenA.graph defaultAllowedEdgeTypes := by
  refine ⟨rfl, rfl, rfl, ?_⟩
  decide

/-- C2: Refuted as stated — TestManager stores the deploy/execute dict as
its execution plan, so execute() iterates the dict's two keys instead of
plan nodes: already on the valid linear-chain scenario the first key
"deploy" is not a node of the subgraph and the predecessor query raises,
for every outcome of the dispatched containers and subprocesses. -/
theorem tm_execute_iterates_dict_keys (oracle : String → Bool) :
    tmExecute cfgScenA oracle
      = Except.error (DslError.nodeNotInGraph "deploy") := rfl

/-- C3 counterexample: on the claim's own scenario — a service triggering a
test that does not exist — construction fails with the aggregated
semantic-check error raised by Config.verify() before any graph is built,
not with the UnknownReference error of the graph build. -/
theorem trigger_missing_counterexample :
    buildConfig cfgScenC
      = Except.error (DslError.semanticCheckFailed [] [] [("a", "t_missing")] [])
    ∧ isUnknownReferenceError (buildConfig cfgScenC) = false := ⟨rfl, rfl⟩

/-- C3 amended: for every configuration with a supported version and
duplicate-free service and test names, a service whose trigger list names a
test absent from the configuration makes construction fail — but with the
semantic-check error collected by verify() (its trigger-findings category
nonempty), which runs before the DAG build ever reaches its
UnknownReference raise. -/
theorem trigger_missing_fails_semantic_check (cfg : ConfigData)
    (hv : cfg.version ∈ SUPPORTED_VERSION)
    (hs : firstDup (serviceNames cfg) = none)
    (ht : firstDup (testNames cfg) = none)
    (s : DslService) (hmem : s ∈ cfg.services)
    (t : String) (htrig : t ∈ s.trigger) (hmiss : ¬ t ∈ testNames cfg) :
    buildConfig cfg = Except.error (DslError.semanticCheckFailed
      (missingNextFindings cfg) (missingDependsFindings cfg)
      (missingTriggerFindings cfg) (missingNeedsFindings cfg))
    ∧ missingTriggerFindings cfg ≠ []
    ∧ isUnknownReferenceError (buildConfig cfg) = false := by
  obtain ⟨h1, h2⟩ := buildConfig_missing_trigger cfg hv hs ht s hmem t htrig hmiss
  refine ⟨h1, h2, ?_⟩
  rw [h1]
  rfl

/-- C3 witness: the amended theorem applied to the missing-trigger
scenario. -/
theorem trigger_missing_fails_semantic_check_witness :
    buildConfig cfgScenC = Except.error (DslError.semanticCheckFailed
      (missingNextFindings cfgScenC) (missingDependsFindings cfgScenC)
      (missingTriggerFindings cfgScenC) (missingNeedsFindings cfgScenC))
    ∧ missingTriggerFindings cfgScenC ≠ []
    ∧ isUnknownReferenceError (buildConfig cfgScenC) = false :=
  trigger_missing_fails_semantic_check cfgScenC (by decide) rfl rfl
    { name := "a", desc := "", image := "img", trigger := ["t_missing"] }
    (by decide) "t_missing" (by decide) (by decide)

/-- C4: Refuted as stated — _execute_test compares only the exit code, never
the captured stdout or stderr: the check's outcome is invariant under any
rewrite of the captured streams, and on a test expecting stdout "hello"
with an observed empty stdout the code marks success while the specified
shell/docker comparison fails. -/
theorem execute_test_checks_exit_code_only :
    (∀ (t : DslTest) (r : SubprocResult) (out err : String),
      executeTestCheck t { r with stdout := out, stderr := err }
        = executeTestCheck t r)
    ∧ executeTestCheck testExpectHello resultEmptyOut = (ExecStatus.success, none)
    ∧ specShellDockerCheck testExpectHello.expect resultEmptyOut = false :=
  ⟨fun _ _ _ _ => rfl, rfl, rfl⟩

/-- C5: the http rendering is exactly curl, the quoted header when one is
present, -X and the method, -d and the quoted payload exactly when the
method is neither GET nor DELETE and a payload is present, and the quoted
endpoint, space-joined; a docker rendering with nonempty argv is exactly
docker exec, the container name and the argv tokens, space-joined; both
scenario G examples render as claimed. -/
theorem runner_render_formats (r : HttpRunner) (d : DockerRunner)
    (c0 : String) (cs : List String) (hd : d.cmd = c0 :: cs) :
    r.getCommand = specHttpRender r
    ∧ d.getCommand = pyJoin " " (["docker", "exec", d.cntr_name] ++ d.cmd)
    ∧ httpScenG.getCommand
        = "curl -H \x27Content-Type: text/plain\x27 -X POST -d \x27\x7b\x7d\x27 \x27http://h/\x27"
    ∧ dockerScenG.getCommand = "docker exec c echo hi" :=
  ⟨http_getCommand_eq_spec r, docker_getCommand_tokens d c0 cs hd, rfl, rfl⟩

/-- C5 witness: the rendering theorem applied to the scenario G runners. -/
theorem runner_render_formats_witness :
    httpScenG.getCommand = specHttpRender httpScenG
    ∧ dockerScenG.getCommand
        = pyJoin " " (["docker", "exec", dockerScenG.cntr_name] ++ dockerScenG.cmd) :=
  ⟨(runner_render_formats httpScenG dockerScenG "echo" ["hi"] rfl).1,
   (runner_render_formats httpScenG dockerScenG "echo" ["hi"] rfl).2.1⟩

/-- C6: evaluation restores the construction-time snapshot before
substituting, so evaluate(B1); evaluate(B2); evaluate(B1) leaves a service
spec in exactly the state of a single evaluate(B1) on the freshly
constructed spec, and repeated evaluation with the same bindings is
idempotent. -/
theorem evaluate_idempotent (d : DslService) (b1 b2 : List (String × String)) :
    (((DslServiceObj.init d).evaluate b1).evaluate b2).evaluate b1
      = (DslServiceObj.init d).evaluate b1
    ∧ ((DslServiceObj.init d).evaluate b1).evaluate b1
      = (DslServiceObj.init d).evaluate b1 := ⟨rfl, rfl⟩

/-- C7: a variable is lazy exactly when its key starts with the dollar
sigil; assigning to a non-lazy variable fails with InvalidMutation and
leaves the stored value unchanged, while assigning to a lazy variable
succeeds and updates the value. -/
theorem variable_lazy_iff_sigil_and_mutation (v : Variable) (nv : String) :
    (v.isLazy = strStartsWith v.key "$")
    ∧ (strStartsWith v.key "$" = false →
        v.setValue nv = Except.error (DslError.invalidMutation v.key)
        ∧ v.setValueOrKeep nv = v)
    ∧ (strStartsWith v.key "$" = true →
        v.setValue nv = Except.ok { v with value := some nv }) := by
  refine ⟨rfl, ?_, ?_⟩
  · intro h
    refine ⟨?_, setValueOrKeep_nonlazy v nv h⟩
    unfold Variable.setValue
    rw [if_pos (by simp [h])]
  · intro h
    unfold Variable.setValue
    rw [if_neg (by simp [h])]

/-- C7 witness: the mutation theorem applied to a non-lazy and to a lazy
variable. -/
theorem variable_lazy_mutation_witness :
    (Variable.mk "x" (some "1")).setValueOrKeep "2" = Variable.mk "x" (some "1")
    ∧ (Variable.mk "$y" none).setValue "2"
        = Except.ok (Variable.mk "$y" (some "2")) :=
  ⟨((variable_lazy_iff_sigil_and_mutation (Variable.mk "x" (some "1")) "2").2.1
      (by decide)).2,
   (variable_lazy_iff_sigil_and_mutation (Variable.mk "$y" none) "2").2.2 (by decide)⟩

/-- C8: for every built configuration, a cycle in the allowed-edge-type
subgraph makes the DAG check report failure and get_topological_order fail
with CyclicGraph; conversely, on an acyclic (including empty) subgraph
get_topological_order returns a topological order of exactly the subgraph's
nodes. -/
theorem dag_cycle_check_and_topo (cfg : ConfigData) (bc : BuiltConfig)
    (allowed : List String) (hb : buildConfig cfg = Except.ok bc) :
    (HasCycle (genSubgraph bc.graph allowed) →
        isValidDag bc.graph allowed = false
        ∧ getTopologicalOrder bc.graph allowed = Except.error DslError.cyclicGraph)
    ∧ (¬ HasCycle (genSubgraph bc.graph allowed) →
        ∃ ord, getTopologicalOrder bc.graph allowed = Except.ok ord
          ∧ IsTopoOrderOf (genSubgraph bc.graph allowed) ord) := by
  constructor
  · intro hcyc
    have hv := isValidDag_false_of_cycle bc.graph allowed hcyc
    refine ⟨hv, ?_⟩
    unfold getTopologicalOrder
    rw [if_pos (by rw [hv]; intro h; exact Bool.noConfusion h)]
  · intro hnc
    have hv := isValidDag_true_of_no_cycle bc.graph allowed hnc
    have hM : (kahnRun (genSubgraph bc.graph allowed)).2 = [] := by
      have hd := isDAG_true_of_no_cycle _ (wf_genSubgraph bc.graph allowed) hnc
      unfold isDirectedAcyclicGraph at hd
      cases hM2 : (kahnRun (genSubgraph bc.graph allowed)).2 with
      | nil => rfl
      | cons a rest =>
        rw [hM2] at hd
        exact Bool.noConfusion hd
    refine ⟨(kahnRun (genSubgraph bc.graph allowed)).1, ?_,
      kahnRun_complete_topo _ (wf_genSubgraph bc.graph allowed) hM⟩
    unfold getTopologicalOrder
    rw [if_neg (by intro hc; exact hc hv)]

/-- C8 witness: the theorem applied to the two-service cycle scenario, whose
subgraph carries the cycle a to b to a. -/
theorem dag_cycle_check_and_topo_witness :
    isValidDag bcScenB.graph defaultAllowedEdgeTypes = false
    ∧ getTopologicalOrder bcScenB.graph defaultAllowedEdgeTypes
        = Except.error DslError.cyclicGraph :=
  (dag_cycle_check_and_topo cfgScenB bcScenB defaultAllowedEdgeTypes rfl).1
    ⟨"a", Relation.TransGen.tail
      (Relation.TransGen.single
        (show EdgeRel (genSubgraph bcScenB.graph defaultAllowedEdgeTypes) "a" "b"
          from by decide))
      (by decide)⟩

/-- C9: whenever some node of the topological order is a test one of whose
needs is missing from the deploy list (the services of the order), plan
generation fails with the missing-dependencies error rather than omitting
the test — in particular when the needed service exists but touches no
allowed-type edge and so is absent from the subgraph and from the deploy
order. -/
theorem plan_missing_needs_error (cfg : ConfigData) (g : DiGraph)
    (ord : List String)
    (hord : getTopologicalOrder g defaultAllowedEdgeTypes = Except.ok ord)
    (node : String) (hmem : node ∈ ord) (htn : node ∈ testNames cfg)
    (tobj : DslTest)
    (hfind : cfg.tests.find? (fun t => t.name == node) = some tobj)
    (hmiss : ¬ (tobj.needs.filter
        (fun y => ¬ y ∈ ord.filter (fun n => n ∈ serviceNames cfg))).isEmpty
          = true) :
    ∃ tn miss, generateExecutionPlan cfg g
      = Except.error (DslError.missingDependencies tn miss) := by
  have hfindall : ∀ n2, n2 ∈ testNames cfg →
      ∃ x, cfg.tests.find? (fun t => t.name == n2) = some x := by
    intro n2 hn2
    exact find?_name_of_mem cfg.tests n2 hn2
  obtain ⟨tn, miss, he⟩ := genExecLoop_error cfg.tests (testNames cfg)
    (ord.filter (fun n => n ∈ serviceNames cfg)) hfindall ord [] []
    (fun x hx => absurd hx (List.not_mem_nil x))
    ⟨node, hmem, htn, tobj, hfind, hmiss⟩
  refine ⟨tn, miss, ?_⟩
  unfold generateExecutionPlan
  rw [hord, ebind_ok]
  show (genExecLoop cfg.tests (testNames cfg)
      (ord.filter (fun n => n ∈ serviceNames cfg)) ord [] [] >>= fun execute =>
        pure (⟨ord.filter (fun n => n ∈ serviceNames cfg), execute⟩ : Plan))
    = Except.error (DslError.missingDependencies tn miss)
  rw [he, ebind_error]

/-- C9 witness: the theorem applied to the isolated-service scenario, where
the semantically valid configuration deploys only s2 and the test t needs
the dropped service s. -/
theorem plan_missing_needs_error_witness :
    ∃ tn miss, generateExecutionPlan cfgIsolated bcIsolated.graph
      = Except.error (DslError.missingDependencies tn miss) :=
  plan_missing_needs_error cfgIsolated bcIsolated.graph ["s2", "t"] rfl "t"
    (by decide) (by decide)
    { name := "t", mode := .SHELL, needs := ["s"],
      runner := .shell ⟨["echo", "t"]⟩, expect := shellExpect0 }
    rfl (by decide)

/-- C10: whether construction succeeds is decided by the version, the
duplicate service and test name scans, the semantic check and the graph
build — no condition involves the inputs, so duplicate input keys never
fail construction; and in every built configuration the key index maps each
key to the last variable carrying it in list order, the lazy index doing
the same exactly for sigil keys. -/
theorem duplicate_inputs_never_fail_last_wins (cfg : ConfigData)
    (bc : BuiltConfig) (hb : buildConfig cfg = Except.ok bc) (k : String) :
    (∀ cfg2 : ConfigData, exceptIsOk (buildConfig cfg2)
        = (decide (cfg2.version ∈ SUPPORTED_VERSION)
           && (firstDup (serviceNames cfg2)).isNone
           && (firstDup (testNames cfg2)).isNone
           && exceptIsOk (verifyE cfg2)
           && exceptIsOk (buildFullGraph cfg2)))
    ∧ alookup bc.inputsDict k = lastVarWith cfg.inputs k
    ∧ alookup bc.lazyVars k
        = (if strStartsWith k "$" = true then lastVarWith cfg.inputs k
           else none) := by
  obtain ⟨h1, h2⟩ := buildConfig_ok_dicts cfg bc hb
  refine ⟨fun cfg2 => buildConfig_isOk_eq cfg2, ?_, ?_⟩
  · rw [h1]
    exact (buildInputDicts_lookup cfg.inputs k).1
  · rw [h2]
    exact (buildInputDicts_lookup cfg.inputs k).2

/-- C10 witness: the theorem applied to the duplicate-key configuration,
which builds successfully and indexes the duplicated key. -/
theorem duplicate_inputs_witness :
    alookup bcDupInputs.inputsDict "$k" = lastVarWith cfgDupInputs.inputs "$k"
    ∧ alookup bcDupInputs.lazyVars "$k"
        = (if strStartsWith "$k" "$" = true then lastVarWith cfgDupInputs.inputs "$k"
           else none) :=
  ⟨(duplicate_inputs_never_fail_last_wins cfgDupInputs bcDupInputs rfl "$k").2.1,
   (duplicate_inputs_never_fail_last_wins cfgDupInputs bcDupInputs rfl "$k").2.2⟩
